import Mathlib

/-!
Shallow embedding of `target_postgres/db_sync.py` (Pathlight/target-postgres).

Python sets of strings are modelled as canonical lists: sorted in Python's
string order (lexicographic by code point) and without duplicates.  All set
operations the source uses (`-`, `intersection`, `|=`, `issuperset`, `len`,
iteration over `sorted(...)`) are order-insensitive, so the canonical
representation is faithful.  Python's `sorted` is modelled by insertion sort
(both are stable, and the sort keys below are compared by a total preorder,
so the results coincide).
-/

/-- Python `str.lower()` as used on identifiers (ASCII), implemented
character-wise so that it evaluates in the kernel. -/
def String.pyLower (s : String) : String :=
  String.mk (s.toList.map Char.toLower)

namespace DbSyncModel

/-- Lexicographic comparison of character lists by code point: the order
Python uses to compare strings. -/
def listCharLt : List Char → List Char → Bool
  | [], [] => false
  | [], _ :: _ => true
  | _ :: _, [] => false
  | a :: as, b :: bs => if a < b then true else if b < a then false else listCharLt as bs

/-- Python `a < b` on strings. -/
def pyStrLt (a b : String) : Bool := listCharLt a.toList b.toList

/-- Python `a <= b` on strings (as a Prop, for use as a sort relation). -/
def pyLe (a b : String) : Prop := pyStrLt b a = false

instance : DecidableRel pyLe := fun _ _ => instDecidableEqBool _ _

/-- Strict variant of `pyLe`, used to state canonical-form facts. -/
def pyLt (a b : String) : Prop := pyStrLt a b = true

instance : DecidableRel pyLt := fun _ _ => instDecidableEqBool _ _

/-- Canonical sorted form of a list of strings (models iteration over
`sorted(python_collection)`). -/
def sortStrings (l : List String) : List String :=
  List.insertionSort pyLe l

/-- Model of building a Python `set` from a list: deduplicate, then keep the
canonical sorted order. -/
def pySet (l : List String) : List String :=
  sortStrings l.dedup

/-- Python set difference `a - b` on canonical lists. -/
def pySetDiff (a b : List String) : List String :=
  a.filter (fun x => decide (x ∉ b))

/-- Python set intersection `a.intersection(b)` on canonical lists. -/
def pySetInter (a b : List String) : List String :=
  a.filter (fun x => decide (x ∈ b))

/-- Python `a.issuperset(b)`, i.e. `b ⊆ a`. -/
def pySuperset (a b : List String) : Bool :=
  b.all (fun x => decide (x ∈ a))

/-- `JSONSCHEMA_TYPES` from db_sync.py (source order of the set literal). -/
def JSONSCHEMA_TYPES : List String :=
  ["string", "number", "integer", "object", "array", "boolean", "null"]

/-- `_JSONSCHEMA_TYPE_CAN_CAST_TO` from db_sync.py, with the `.get(t, ())`
default for unknown keys. -/
def JSONSCHEMA_TYPE_CAN_CAST_TO (t : String) : List String :=
  if t = "string" then JSONSCHEMA_TYPES
  else if t = "number" then ["integer", "boolean"]
  else if t = "integer" then ["boolean"]
  else if t = "object" then ["array"]
  else []

/-- `get_usable_types` from db_sync.py: drop null, intersect with the known
jsonschema types.  The result is canonical (sorted, no duplicates). -/
def get_usable_types (types : List String) : List String :=
  pySetInter (pySet JSONSCHEMA_TYPES) (pySetDiff (pySet types) ["null"])

/-- `get_castable_types` from db_sync.py. -/
def get_castable_types (target_type : String) : List String :=
  get_usable_types (JSONSCHEMA_TYPE_CAN_CAST_TO target_type ++ [target_type])

/-- The `for t in sorted(types)` loop of `most_general_type`, carrying the
running `(best_score, best_type)` pair; it updates on a strictly greater
score. -/
def mgtLoop (usable : List String) : List String → Nat × Option String → Nat × Option String
  | [], best => best
  | t :: rest, (bs, bt) =>
    let score := (pySetInter (get_castable_types t) usable).length
    if bs < score then mgtLoop usable rest (score, some t)
    else mgtLoop usable rest (bs, bt)

/-- The part of `most_general_type` after `types = get_usable_types(types)`:
run the scoring loop over `sorted(types)` (which is exactly the canonical
`usable` list) and fall back to `"string"` when no winner exists or the winner
does not cover every usable type. -/
def mgtOfUsable (usable : List String) : String :=
  match mgtLoop usable usable (0, none) with
  | (_, none) => "string"
  | (_, some best) =>
    if pySuperset (get_castable_types best) usable then best else "string"

/-- `most_general_type` from db_sync.py.  The argument is the raw list of
observed type names; `if not types` is Python emptiness of that list. -/
def most_general_type (types : List String) : String :=
  if types = [] then "string"
  else mgtOfUsable (get_usable_types types)

/-- Boolean cover test: does the castable set of `t` cover the whole usable
set? -/
def coversB (t : String) (usable : List String) : Bool :=
  pySuperset (get_castable_types t) usable

/-! ### ColumnNamer: `inflect_name`, `inflection.underscore`,
`inflection.camelize`, `flatten_key`

Each Python `re.sub` call in the source is modelled by a recursive function on
the character list that scans left to right, replacing the leftmost match and
continuing after it, exactly as `re.sub` does.  All character classes involved
(`[^a-zA-Z0-9]`, `[A-Z]`, `[a-z]`, `\d`) are ASCII classes.
-/

/-- First substitution of `inflect_name`:
`re.sub(r'[^a-zA-Z0-9]', '_', name)` — every non-alphanumeric character
becomes an underscore. -/
def subNonAlnum (l : List Char) : List Char :=
  l.map (fun c => if c.isAlpha || c.isDigit then c else '_')

/-- Does an optional previous character exist and satisfy `Char.isUpper`? -/
def prevIsUpper : Option Char → Bool
  | some c => c.isUpper
  | none => false

/-- Do the next two characters exist and form `[A-Z][a-z]`? -/
def nextIsUpperLower : List Char → Bool
  | u :: low :: _ => u.isUpper && low.isLower
  | _ => false

/-- Does the next character exist and satisfy `Char.isLower`? -/
def nextIsLower : List Char → Bool
  | c :: _ => c.isLower
  | _ => false

/-- Second substitution of `inflect_name`:
`re.sub(r"([A-Z]+)_([A-Z][a-z])", r'\1__\2', name)`.
The replacement copies both groups verbatim and only doubles the matched
underscore, so the substitution is equivalent to the local rule: an
underscore is doubled exactly when the character before it is uppercase and
the two characters after it are uppercase-then-lowercase.  (Matches cannot
interfere: a match ends in a lowercase character, and the group `[A-Z][a-z]`
contains no underscore, so no underscore inside or immediately after one
match can be a candidate of another.)  `prev` is the previous original
character. -/
def subCapsUnderscore : Option Char → List Char → List Char
  | _, [] => []
  | prev, c :: rest =>
    if c == '_' && prevIsUpper prev && nextIsUpperLower rest then
      '_' :: '_' :: subCapsUnderscore (some c) rest
    else c :: subCapsUnderscore (some c) rest

/-- Third substitution of `inflect_name`:
`re.sub(r"([a-z\d])_([A-Z])", r'\1__\2', name)`. -/
def subLowerUnderscoreUpper : List Char → List Char
  | [] => []
  | [c] => [c]
  | [c, d] => [c, d]
  | a :: b :: c :: rest =>
    if (a.isLower || a.isDigit) && b == '_' && c.isUpper then
      a :: '_' :: '_' :: c :: subLowerUnderscoreUpper rest
    else a :: subLowerUnderscoreUpper (b :: c :: rest)

/-- First substitution of `inflection.underscore`:
`re.sub(r"([A-Z]+)([A-Z][a-z])", r'\1_\2', word)` — an uppercase run of length
at least two followed by a lowercase letter is split before its last
uppercase letter.  Both groups are copied verbatim and only a single
underscore is inserted between them, so the substitution is equivalent to the
local rule: an underscore is inserted before a character exactly when it is
uppercase, the previous character is uppercase, and the next character is
lowercase.  (At most one position per uppercase run qualifies, and a match
ends in a lowercase character, so matches cannot interfere.) -/
def subAcronym : Option Char → List Char → List Char
  | _, [] => []
  | prev, c :: rest =>
    if c.isUpper && prevIsUpper prev && nextIsLower rest then
      '_' :: c :: subAcronym (some c) rest
    else c :: subAcronym (some c) rest

/-- Second substitution of `inflection.underscore`:
`re.sub(r"([a-z\d])([A-Z])", r'\1_\2', word)`. -/
def subCamelBoundary : List Char → List Char
  | [] => []
  | [c] => [c]
  | a :: b :: rest =>
    if (a.isLower || a.isDigit) && b.isUpper then
      a :: '_' :: b :: subCamelBoundary rest
    else a :: subCamelBoundary (b :: rest)

/-- `inflection.underscore(word)`: the two camel-boundary substitutions, then
`word.replace("-", "_")`, then `.lower()`. -/
def inflectionUnderscore (l : List Char) : List Char :=
  ((subCamelBoundary (subAcronym none l)).map
    (fun c => if c == '-' then '_' else c)).map Char.toLower

/-- Scanner of `inflection.camelize` after the first character:
`_(.)` matches an underscore followed by any character and replaces the pair
with that character uppercased. -/
def camelizeAux : List Char → List Char
  | [] => []
  | '_' :: c :: rest => c.toUpper :: camelizeAux rest
  | c :: rest => c :: camelizeAux rest

/-- `inflection.camelize(string)` (with its default
`uppercase_first_letter=True`): `re.sub(r"(?:^|_)(.)", upper, string)` — the
first character is uppercased via the `^` alternative, and each later
underscore-character pair collapses to the uppercased character. -/
def camelize (l : List Char) : List Char :=
  match l with
  | [] => []
  | c :: rest => c.toUpper :: camelizeAux rest

/-- `inflect_name` from db_sync.py.  Returns `none` when the Python code
raises: `name[0]` is indexed unguarded, so the empty string raises an
IndexError (after the three substitutions, which preserve emptiness). -/
def inflect_name (name : String) : Option String :=
  let l1 := subNonAlnum name.toList
  let l2 := subCapsUnderscore none l1
  let l3 := subLowerUnderscoreUpper l2
  match l3 with
  | [] => none
  | c :: _ =>
    let l4 := if c.isDigit then '_' :: l3 else l3
    some (String.mk (inflectionUnderscore l4))

/-- One abbreviation step of `flatten_key`'s while loop on the segment at the
current reducer index:
`reduced_key = re.sub(r'[a-z]', '', inflection.camelize(seg))`, then
`(reduced_key if len(reduced_key) > 1 else seg[0:3]).lower()`. -/
def abbrevSeg (s : String) : String :=
  let reduced := (camelize s.toList).filter (fun c => !c.isLower)
  String.mk ((if reduced.length > 1 then reduced else s.toList.take 3).map Char.toLower)

/-- The while loop of `flatten_key`: `done` holds the segments before the
reducer index (already processed), `todo` the rest.  While the joined name has
length at least 63 and segments remain, abbreviate the segment at the index
and advance. -/
def flattenKeyLoop (sep : String) : List String → List String → List String
  | done, [] => done
  | done, k :: rest =>
    if 63 ≤ (String.intercalate sep (done ++ k :: rest)).length then
      flattenKeyLoop sep (done ++ [abbrevSeg k]) rest
    else done ++ k :: rest

/-- `flatten_key` from db_sync.py: inflect every segment of
`parent_key + [k]`, run the abbreviation loop, and join with `sep`.  `none`
when `inflect_name` raises on some segment (empty segment). -/
def flatten_key (k : String) (parent_key : List String) (sep : String) : Option String := do
  let inflected ← (parent_key ++ [k]).mapM inflect_name
  pure (String.intercalate sep (flattenKeyLoop sep [] inflected))

/-! ### JSON values and Python dict/membership primitives

Schema nodes and record values are Python JSON-compatible values; `J` models
them.  A `J.obj` models a Python dict (keys unique, insertion-ordered).
-/

inductive J where
  | null
  | bool (b : Bool)
  | num (n : Int)
  | str (s : String)
  | arr (elems : List J)
  | obj (fields : List (String × J))

/-- Python truthiness of a JSON-compatible value (`if not d`). -/
def pyTruthy : J → Bool
  | .null => false
  | .bool b => b
  | .num n => decide (n ≠ 0)
  | .str s => decide (s ≠ "")
  | .arr l => !l.isEmpty
  | .obj l => !l.isEmpty

/-- Is the value a Python dict (`isinstance(d, dict)` / `MutableMapping`)? -/
def J.isObj : J → Bool
  | .obj _ => true
  | _ => false

/-- Python `x == "s"` for a JSON value `x` and a string literal. -/
def J.isStrEq (s : String) : J → Bool
  | .str t => t == s
  | _ => false

/-- Python dict assignment `m[k] = v`: overwrite in place if the key exists,
else append. -/
def pyDictInsert (m : List (String × α)) (k : String) (v : α) : List (String × α) :=
  if m.any (fun p => p.1 == k) then m.map (fun p => if p.1 == k then (k, v) else p)
  else m ++ [(k, v)]

/-- Python dict built from a list of pairs (later pairs overwrite earlier
ones, insertion order kept). -/
def pyDictOf (l : List (String × α)) : List (String × α) :=
  l.foldl (fun m p => pyDictInsert m p.1 p.2) []

/-- Python `m.get(k)` on an association list regarded as a dict. -/
def pyDictGet? (m : List (String × α)) (k : String) : Option α :=
  (m.find? (fun p => p.1 == k)).map (fun p => p.2)

/-- Python `k in m` for a dict. -/
def pyDictHasKey (m : List (String × α)) (k : String) : Bool :=
  m.any (fun p => p.1 == k)

/-- Python `v[k]` for a string key: KeyError when the key is missing,
TypeError when the value is not a dict. -/
def pyGetKey (v : J) (k : String) : Except String J :=
  match v with
  | .obj fields =>
    match pyDictGet? fields k with
    | some x => .ok x
    | none => .error ("KeyError: " ++ k)
  | _ => .error "TypeError: value is not subscriptable by a string key"

/-- Python `v.get(k, None)`-style access used for
`v['format'] if 'format' in v else None`; only reached when `v` is a dict. -/
def pyOptGet (v : J) (k : String) : Option J :=
  match v with
  | .obj fields => pyDictGet? fields k
  | _ => none

/-- Does the character-list `needle` occur at the start of `hay`? -/
def startsWithChars : List Char → List Char → Bool
  | [], _ => true
  | _ :: _, [] => false
  | a :: as, b :: bs => a == b && startsWithChars as bs

/-- Python substring test `needle in hay` for strings. -/
def containsChars : List Char → List Char → Bool
  | hay, needle =>
    startsWithChars needle hay ||
      match hay with
      | [] => false
      | _ :: t => containsChars t needle

/-- Python `needle in container` for a string needle: substring test on a
string, element membership on a list, key membership on a dict, TypeError
otherwise. -/
def pyInStr (needle : String) : J → Except String Bool
  | .str s => .ok (containsChars s.toList needle.toList)
  | .arr es => .ok (es.any (J.isStrEq needle))
  | .obj fields => .ok (pyDictHasKey fields needle)
  | _ => .error "TypeError: argument is not iterable"

/-- Python `v[0]` for an integer index: head of a list, IndexError when
empty, TypeError otherwise (subscripting a non-sequence). -/
def pyIndex0 : J → Except String J
  | .arr (x :: _) => .ok x
  | .arr [] => .error "IndexError: list index out of range"
  | _ => .error "TypeError: value is not subscriptable by an integer"

/-- Lift an `Option` to `Except` with the given error message. -/
def exceptOfOption (e : String) : Option α → Except String α
  | some a => .ok a
  | none => .error e

/-- The fields of a dict value, or the AttributeError Python raises when
calling `.items()` / `.keys()` / `.values()` on a non-dict. -/
def expectObjFields : J → Except String (List (String × J))
  | .obj fs => .ok fs
  | _ => .error "AttributeError: value has no dict methods"

/-! ### JSON serialization (`json.dumps`) -/

/-- Lowercase hexadecimal digit. -/
def hexDigit (n : Nat) : Char :=
  if n < 10 then Char.ofNat (48 + n) else Char.ofNat (87 + n)

/-- The `\uXXXX` escape for a code point (inputs here are in the BMP). -/
def uEscape (n : Nat) : List Char :=
  ['\\', 'u', hexDigit ((n / 4096) % 16), hexDigit ((n / 256) % 16),
   hexDigit ((n / 16) % 16), hexDigit (n % 16)]

/-- How `json.dumps` (default options, `ensure_ascii=True`) renders one
character inside a string literal. -/
def jsonEscapeChar (c : Char) : List Char :=
  if c == '"' then ['\\', '"']
  else if c == '\\' then ['\\', '\\']
  else if c == '\n' then ['\\', 'n']
  else if c == '\t' then ['\\', 't']
  else if c == '\r' then ['\\', 'r']
  else if c.toNat == 8 then ['\\', 'b']
  else if c.toNat == 12 then ['\\', 'f']
  else if c.toNat < 32 || 126 < c.toNat then uEscape c.toNat
  else [c]

/-- A JSON string literal as `json.dumps` renders it. -/
def jsonQuote (s : String) : String :=
  String.mk ('"' :: (s.toList.map jsonEscapeChar).flatten ++ ['"'])

/-- `json.dumps(v)` with the library's default separators. -/
def jsonDumps : J → String
  | .null => "null"
  | .bool b => if b then "true" else "false"
  | .num n => toString n
  | .str s => jsonQuote s
  | .arr es => "[" ++ String.intercalate ", " (es.attach.map (fun e => jsonDumps e.1)) ++ "]"
  | .obj fs =>
    "\x7b" ++
      String.intercalate ", "
        (fs.attach.map (fun kv => jsonQuote kv.1.1 ++ ": " ++ jsonDumps kv.1.2)) ++
      "\x7d"
decreasing_by
  · have := List.sizeOf_lt_of_mem e.2
    simp at this ⊢
    omega
  · obtain ⟨⟨k, v⟩, hm⟩ := kv
    have := List.sizeOf_lt_of_mem hm
    simp at this ⊢
    omega

/-! ### Column types (`column_type`, `_column_type_simple`,
`_column_type_generic`, `column_clause`) -/

/-- Python `property_format == 'x'` where `property_format` is
`schema_property['format'] if 'format' in schema_property else None`. -/
def fmtIs (fmt : Option J) (s : String) : Bool :=
  match fmt with
  | some (.str t) => t == s
  | _ => false

/-- `_column_type_simple` from db_sync.py: the fixed rule cascade.  The
`or`/`elif` conditions are evaluated lazily in source order; the two `in`
tests of one condition run on the same container, so evaluating them
together raises exactly when the source does. -/
def _column_type_simple (schema_property : J) : Except String String := do
  let property_type ← pyGetKey schema_property "type"
  let property_format := pyOptGet schema_property "format"
  let hasObj ← pyInStr "object" property_type
  let hasArr ← pyInStr "array" property_type
  if hasObj || hasArr then pure "jsonb"
  else if fmtIs property_format "date-time" then pure "timestamp with time zone"
  else if fmtIs property_format "date" then pure "date"
  else do
    let hasNum ← pyInStr "number" property_type
    if hasNum then pure "numeric"
    else do
      let hasInt ← pyInStr "integer" property_type
      let hasStr ← pyInStr "string" property_type
      if hasInt && hasStr then pure "character varying"
      else do
        let hasBool ← pyInStr "boolean" property_type
        if hasBool then pure "boolean"
        else if hasInt then pure "bigint"
        else pure "character varying"

/-- `JSONSCHEMA_TYPE_TO_POSTGRES_TYPE` from db_sync.py as a partial map. -/
def JSONSCHEMA_TYPE_TO_POSTGRES_TYPE (t : String) : Option String :=
  if t = "string" then some "character varying"
  else if t = "number" then some "numeric"
  else if t = "integer" then some "bigint"
  else if t = "object" then some "jsonb"
  else if t = "array" then some "jsonb"
  else if t = "boolean" then some "boolean"
  else none

/-- The list of type names handed to `most_general_type` by
`_column_type_generic`: a single string becomes a one-element list; a list
keeps its string elements.  (Non-string elements of a list never survive the
`JSONSCHEMA_TYPES` intersection inside `most_general_type`, and dropping
them cannot change the other path either: a nonempty list of non-strings
yields an empty usable set, which `most_general_type` maps to `"string"`
exactly as it maps the empty list.)  Any other shape raises in Python when
`most_general_type` iterates it. -/
def jTypeNames : J → Except String (List String)
  | .str s => .ok [s]
  | .arr es => .ok (es.filterMap (fun e => match e with | .str s => some s | _ => none))
  | _ => .error "TypeError: type value is not iterable"

/-- `_column_type_generic` from db_sync.py. -/
def _column_type_generic (schema_property : J) : Except String String := do
  let hasFmt ← pyInStr "format" schema_property
  let property_format ←
    if hasFmt then (pyGetKey schema_property "format").map some else pure none
  let typesVal ← pyGetKey schema_property "type"
  let types ← jTypeNames typesVal
  let concrete_type := most_general_type types
  if concrete_type = "string" && fmtIs property_format "date-time" then
    pure "timestamp with time zone"
  else if concrete_type = "string" && fmtIs property_format "date" then
    pure "date"
  else
    match JSONSCHEMA_TYPE_TO_POSTGRES_TYPE concrete_type with
    | some pg => pure pg
    | none => pure "character varying"

/-- `column_type` from db_sync.py (`use_simple` defaults to true in the
source). -/
def column_type (schema_property : J) (use_simple : Bool) : Except String String :=
  if use_simple then _column_type_simple schema_property
  else _column_type_generic schema_property

/-- `safe_column_name` from db_sync.py. -/
def safe_column_name (name : String) : String :=
  "\"" ++ name ++ "\""

/-- `column_clause` from db_sync.py: the quoted name followed by the column
type. -/
def column_clause (name : String) (schema_property : J) (use_simple : Bool) :
    Except String String :=
  (column_type schema_property use_simple).map
    (fun t => safe_column_name name ++ " " ++ t)

/-! ### SchemaDiffEngine: `DbSync.update_columns`

The live column set is the row list returned by `get_table_columns` (an
external query), modelled as `(column_name, data_type)` pairs.  The actions
the method issues through `add_column`/`drop_column` are recorded
structurally: `ColAction.add name ty` stands for
`ALTER TABLE .. ADD COLUMN "name" ty` (the clause is
`column_clause name _`), and `ColAction.drop name` for
`ALTER TABLE .. DROP COLUMN "name"` (the column is `safe_column_name name`).
The method's outcome is the list of actions issued before it returned or
raised, paired with `ok`/`error`.
-/

inductive ColAction where
  | add (name : String) (coltype : String)
  | drop (name : String)
deriving DecidableEq

/-- The second loop of `update_columns`, which builds `columns_to_replace`:
for each desired column, the column type is computed (line 466), then
`columns_dict[name_lower]` is read unguarded (line 467, KeyError when the
name is absent), and only then the membership/type-difference/timestamp
conditions are tested (lines 468-472). -/
def collectReplace (columns_dict : List (String × (String × String)))
    (use_simple : Bool) : List (String × J) → Except String (List (String × String))
  | [] => .ok []
  | (name, properties_schema) :: rest => do
    let name_lower := name.pyLower
    let col_type := (← column_type properties_schema use_simple).pyLower
    match pyDictGet? columns_dict name_lower with
    | none => .error ("KeyError: " ++ name_lower)
    | some col =>
      let col_data_type := col.2.pyLower
      let tail ← collectReplace columns_dict use_simple rest
      if pyDictHasKey columns_dict name_lower && col_data_type != col_type &&
          !(col_data_type == "timestamp without time zone" &&
            col_type == "timestamp with time zone") then do
        let full_type ← column_type properties_schema use_simple
        pure ((name, full_type) :: tail)
      else pure tail

/-- The column name an action targets. -/
def colActionName : ColAction → String
  | .add n _ => n
  | .drop n => n

/-- Did a modelled Python expression complete without raising? -/
def exceptIsOk : Except ε α → Bool
  | .ok _ => true
  | .error _ => false

/-- The drop-then-add action pair `update_columns` issues for one entry of
`columns_to_replace`. -/
def replacePairActs (nt : String × String) : List ColAction :=
  [ColAction.drop nt.1, ColAction.add nt.1 nt.2]

/-- The `columns_to_replace` entry the loop computes for one desired column
when its type computation and dict lookup succeed: the new type when the
replace condition (a type difference, minus the timestamp-widening
exception) holds, `none` otherwise. -/
def replaceEntry (columns_dict : List (String × (String × String))) (use_simple : Bool)
    (p : String × J) : Option (String × String) :=
  match column_type p.2 use_simple, pyDictGet? columns_dict p.1.pyLower with
  | .ok ct, some col =>
    if pyDictHasKey columns_dict p.1.pyLower && col.2.pyLower != ct.pyLower &&
        !(col.2.pyLower == "timestamp without time zone" &&
          ct.pyLower == "timestamp with time zone") then
      some (p.1, ct)
    else none
  | _, _ => none

/-- `DbSync.update_columns` from db_sync.py.  `flattenSchema` is
`self.flatten_schema` (the ordered name-to-node mapping computed in
`__init__`), `live` the rows of `get_table_columns`.  Returns the actions
issued (adds first, then drop/add pairs for replacements) together with the
outcome: Python raises out of the method when a lookup or type computation
raises, after the adds have already been executed. -/
def update_columns (flattenSchema : List (String × J)) (use_simple : Bool)
    (live : List (String × String)) : List ColAction × Except String Unit :=
  let columns_dict := pyDictOf (live.map (fun c => (c.1.pyLower, c)))
  let addsE :=
    (flattenSchema.filter (fun np => !pyDictHasKey columns_dict np.1.pyLower)).mapM
      (fun np => (column_type np.2 use_simple).map (fun t => (np.1, t)))
  match addsE with
  | .error e => ([], .error e)
  | .ok adds =>
    let addActs := adds.map (fun nt => ColAction.add nt.1 nt.2)
    match collectReplace columns_dict use_simple flattenSchema with
    | .error e => (addActs, .error e)
    | .ok reps => (addActs ++ reps.flatMap replacePairActs, .ok ())

/-- Modelled from the spec: the external database's execution of the
`ALTER TABLE` statements issued by `add_column`/`drop_column` — §4.4: apply
every Add, and apply a Replace as drop-the-existing-column followed by
add-the-new-definition.  Adding appends a live column of the stated type;
dropping removes the column of that exact name. -/
def applyColActions (live : List (String × String)) : List ColAction → List (String × String)
  | [] => live
  | .add n t :: rest => applyColActions (live ++ [(n, t)]) rest
  | .drop n :: rest => applyColActions (live.filter (fun c => c.1 != n)) rest

/-! ### SchemaFlattener: `flatten_schema` and `flatten_record`

Both source functions recurse into nested dict values, which is not a
structural recursion over `J`; the models take an explicit recursion-depth
fuel (structural, so that the kernel can evaluate them) and raise the
Python `RecursionError` when it runs out.  Any fuel at least the nesting
depth of the input gives the source behaviour.
-/

/-- Comparison of `(name, node)` items by name, the `key=item[0]` order of
the source's `sorted` call. -/
def pairKeyLe (a b : String × J) : Prop := pyLe a.1 b.1

instance : DecidableRel pairKeyLe := fun _ _ => instDecidableEqBool _ _

/-- Sorting of `(name, node)` items by name: `sorted(items, key=item[0])`. -/
def sortPairsByKey (l : List (String × J)) : List (String × J) :=
  List.insertionSort pairKeyLe l

/-- Does the sorted item list contain a group (under `itertools.groupby` by
name) with more than one member?  Equivalent to: some adjacent pair of the
sorted list shares its name. -/
def hasAdjDupKey : List (String × J) → Bool
  | [] => false
  | [_] => false
  | a :: b :: t => a.1 == b.1 || hasAdjDupKey (b :: t)

/-- The body of `flatten_schema`'s `for k, v in d['properties'].items()`
loop for a single `(k, v)` field, parameterized by the recursive call
`child` used for nested object schemas.  Returns the items this field
contributes (`continue` contributes none). -/
def fsField (child : J → List String → Except String (List (String × J)))
    (parent_key : List String) (sep : String) (k : String) (v0 : J) :
    Except String (List (String × J)) := do
  let new_key ← exceptOfOption "IndexError: string index out of range"
    (flatten_key k parent_key sep)
  let hasAnyOf ← pyInStr "anyOf" v0
  let v ← if hasAnyOf then do pyIndex0 (← pyGetKey v0 "anyOf") else pure v0
  let vFields ← expectObjFields v
  if pyDictHasKey vFields "type" then do
    let tv ← pyGetKey v "type"
    let isObjType ← pyInStr "object" tv
    if isObjType && pyDictHasKey vFields "properties" then
      child v (parent_key ++ [k])
    else pure [(new_key, v)]
  else
    if !pyTruthy v then pure []
    else
      match vFields with
      | [] => pure []
      | (_, fv) :: _ => do
        let e ← pyIndex0 fv
        let tE ← pyGetKey e "type"
        if J.isStrEq "string" tE then
          let e2 := match e with
            | .obj fs => J.obj (pyDictInsert fs "type" (J.arr [J.str "null", J.str "string"]))
            | _ => e
          pure [(new_key, e2)]
        else if J.isStrEq "array" tE then
          let e2 := match e with
            | .obj fs => J.obj (pyDictInsert fs "type" (J.arr [J.str "null", J.str "array"]))
            | _ => e
          pure [(new_key, e2)]
        else pure []

/-- One level of `flatten_schema`'s item collection: read
`d['properties'].items()` and run the per-field body over every field,
concatenating the contributions in order. -/
def fsLevelItems (child : J → List String → Except String (List (String × J)))
    (d : J) (parent_key : List String) (sep : String) :
    Except String (List (String × J)) := do
  let props ← pyGetKey d "properties"
  let fields ← expectObjFields props
  let lists ← fields.mapM (fun kv => fsField child parent_key sep kv.1 kv.2)
  pure lists.flatten

/-- The tail of `flatten_schema`: sort the collected items by name, raise
`ValueError` if any name occurs twice (the `groupby` check), and return the
items of `dict(sorted_items)` — with no duplicate names the association
list is that dict. -/
def fsCheck (items : List (String × J)) : Except String (List (String × J)) :=
  let sorted_items := sortPairsByKey items
  if hasAdjDupKey sorted_items then
    .error "ValueError: Duplicate column name produced in schema"
  else .ok sorted_items

/-- `flatten_schema` from db_sync.py (the recursive function itself, with
its `parent_key`/`sep` parameters): collect the items of one level
(recursing into nested object schemas), then sort and reject duplicates. -/
def flatten_schema_f : Nat → J → List String → String → Except String (List (String × J))
  | 0, _, _, _ => .error "RecursionError: maximum recursion depth exceeded"
  | fuel + 1, d, parent_key, sep =>
    (fsLevelItems (fun v pk => flatten_schema_f fuel v pk sep) d parent_key sep).bind fsCheck

/-- The items collected by one level of `flatten_schema` before that level's
sort-and-duplicate check (children are still fully processed).  Not
recursive itself: it invokes `flatten_schema_f` for nested objects exactly
as the source loop does. -/
def fsRawItems : Nat → J → List String → String → Except String (List (String × J))
  | 0, _, _, _ => .error "RecursionError: maximum recursion depth exceeded"
  | fuel + 1, d, parent_key, sep =>
    fsLevelItems (fun v pk => flatten_schema_f fuel v pk sep) d parent_key sep

/-- `flatten_schema(d)` as called with the default arguments. -/
def flatten_schema (fuel : Nat) (d : J) : Except String (List (String × J)) :=
  flatten_schema_f fuel d [] "__"

/-- The body of `flatten_record`'s `for k, v in d.items()` loop for a single
field, parameterized by the recursive call `child` used for nested dicts.
A nested dict contributes its recursively flattened items followed by its
own path bound to `json.dumps` of the whole value; a list is serialized with
`json.dumps`; any other value is kept as is. -/
def frField (child : J → List String → Except String (List (String × J)))
    (parent_key : List String) (sep : String) (k : String) (v : J) :
    Except String (List (String × J)) := do
  let new_key ← exceptOfOption "IndexError: string index out of range"
    (flatten_key k parent_key sep)
  match v with
  | .obj _ => do
    let childItems ← child v (parent_key ++ [k])
    pure (childItems ++ [(new_key, J.str (jsonDumps v))])
  | .arr _ => pure [(new_key, J.str (jsonDumps v))]
  | w => pure [(new_key, w)]

/-- One level of `flatten_record`'s item collection: run the per-field body
over every field of the dict, concatenating the contributions in order. -/
def frLevelItems (child : J → List String → Except String (List (String × J)))
    (fields : List (String × J)) (parent_key : List String) (sep : String) :
    Except String (List (String × J)) :=
  (fields.mapM (fun kv => frField child parent_key sep kv.1 kv.2)).map List.flatten

/-- `flatten_record` from db_sync.py.  A value that is falsy or not a dict
flattens to the empty dict before anything else happens; otherwise every
field is flattened through `frField` (with `flatten_record` itself as the
recursive call for nested dicts) and the collected items are turned into a
dict (later duplicate names overwrite earlier ones). -/
def flatten_record : Nat → J → List String → String → Except String (List (String × J))
  | fuel, d, parent_key, sep =>
    if !pyTruthy d || !J.isObj d then .ok []
    else
      match fuel, d with
      | 0, _ => .error "RecursionError: maximum recursion depth exceeded"
      | fuel + 1, .obj fields =>
        (frLevelItems (fun v pk => flatten_record fuel v pk sep) fields parent_key sep).map
          pyDictOf
      | _ + 1, _ => .ok []

/-- The items collected by one level of `flatten_record` before the final
`dict(items)` conversion (nested dicts are still fully processed, and their
contributions are the already-dict-converted child items, exactly as the
source's `.items()` extension reads them).  Not recursive itself: it invokes
`flatten_record` for nested dicts exactly as the source loop does. -/
def frRawItems (fuel : Nat) (d : J) (parent_key : List String) (sep : String) :
    Except String (List (String × J)) :=
  if !pyTruthy d || !J.isObj d then .ok []
  else
    match fuel, d with
    | 0, _ => .error "RecursionError: maximum recursion depth exceeded"
    | fuel + 1, .obj fields =>
      frLevelItems (fun v pk => flatten_record fuel v pk sep) fields parent_key sep
    | _ + 1, _ => .ok []

/-! ### `DbSync.__init__` (C6) -/

/-- The state a successfully constructed `DbSync` holds (the fields of
`__init__` that the core uses).  `__init__` runs no query: it only reads
configuration and computes `flatten_schema`, so a schema-conflict error is
raised before any DDL or DML can be issued by later methods. -/
structure DbSyncState where
  schema_name : String
  use_simple_column_type : Bool
  flattenSchema : List (String × J)

/-- `DbSync.__init__` from db_sync.py: store the configuration and compute
`flatten_schema(stream_schema_message['schema'])`; any `ValueError` from the
collision check propagates and the object is never constructed. -/
def dbSyncInit (fuel : Nat) (schema_name : String) (use_simple : Bool)
    (streamSchema : J) : Except String DbSyncState :=
  (flatten_schema fuel streamSchema).map
    (fun fs => { schema_name := schema_name,
                 use_simple_column_type := use_simple,
                 flattenSchema := fs })

/-! ### SyncOrchestrator: `load_csv` (C3, C7)

`load_csv` executes, in order: `create_table_query(True)` (staging create),
`copy_expert` (bulk ingest), `update_from_temp_table` when key properties
exist (merge update), `insert_from_temp_table` (insert), and
`drop_temp_table` (staging drop).  There is no try/finally: an exception
from any statement propagates immediately and the remaining statements are
not attempted.  `attemptedSteps` records which statements were attempted,
given which statement executions fail.
-/

inductive BatchStep where
  | stagingCreate
  | bulkIngest
  | mergeUpdate
  | insertStep
  | stagingDrop
deriving DecidableEq

/-- The statement sequence of `load_csv` for a stream with `keyCount`
declared key properties (the merge update is issued only when
`keyCount > 0`). -/
def load_csv_steps (keyCount : Nat) : List BatchStep :=
  [.stagingCreate, .bulkIngest] ++
    (if keyCount > 0 then [.mergeUpdate] else []) ++
    [.insertStep, .stagingDrop]

/-- The prefix of statements actually attempted: each statement is attempted
in order, and a failing statement aborts the rest (exception propagation,
no try/finally in `load_csv`). -/
def attemptedSteps (fails : BatchStep → Bool) : List BatchStep → List BatchStep
  | [] => []
  | s :: rest => if fails s then [s] else s :: attemptedSteps fails rest

/-- Modelled from the spec: the external database's execution of one batch
statement (§4.5) — STAGING_CREATE makes an empty staging relation,
BULK_INGEST appends the batch rows to it, MERGE's update step rewrites every
target row whose primary key equals some staging row's key with that staging
row, the insert step appends every staging row (no key properties) or every
staging row whose key matches no target row (key properties declared), and
STAGING_DROP removes the staging relation. -/
def execStep (pk : Row → K) [BEq K] (hasKeys : Bool) (batch : List Row) :
    BatchStep → List Row × List Row → List Row × List Row
  | .stagingCreate, (target, _) => (target, [])
  | .bulkIngest, (target, staging) => (target, staging ++ batch)
  | .mergeUpdate, (target, staging) =>
    (target.map (fun r => ((staging.find? (fun s => pk s == pk r)).getD r)), staging)
  | .insertStep, (target, staging) =>
    (target ++
      (if hasKeys then staging.filter (fun s => !(target.any (fun r => pk r == pk s)))
       else staging), staging)
  | .stagingDrop, (target, _) => (target, [])

/-- One whole `load_csv` batch against the modelled database, with no
statement failures: fold the statement sequence over the
`(target rows, staging rows)` state. -/
def loadBatch (pk : Row → K) [BEq K] (keyCount : Nat) (batch : List Row)
    (target : List Row) : List Row × List Row :=
  (load_csv_steps keyCount).foldl
    (fun st step => execStep pk (keyCount > 0) batch step st) (target, [])

end DbSyncModel

/-! ## Theorems -/

namespace DbSyncModel

theorem listCharLt_irrefl : ∀ l, listCharLt l l = false
  | [] => rfl
  | a :: as => by simp [listCharLt, listCharLt_irrefl as]

theorem listCharLt_asymm : ∀ a b, listCharLt a b = true → listCharLt b a = false
  | [], [] => by simp [listCharLt]
  | [], _ :: _ => by simp [listCharLt]
  | _ :: _, [] => by simp [listCharLt]
  | a :: as, b :: bs => by
    by_cases h1 : a < b
    · intro _
      simp [listCharLt, h1, lt_asymm h1]
    · by_cases h2 : b < a
      · simp [listCharLt, h1, h2]
      · intro h
        simp only [listCharLt, if_neg h1, if_neg h2] at h
        simp only [listCharLt, if_neg h1, if_neg h2]
        exact listCharLt_asymm as bs h

theorem listCharLt_connex :
    ∀ a b, listCharLt a b = false → listCharLt b a = false → a = b
  | [], [], _, _ => rfl
  | [], _ :: _, h1, _ => by simp [listCharLt] at h1
  | _ :: _, [], _, h2 => by simp [listCharLt] at h2
  | a :: as, b :: bs, h1, h2 => by
    by_cases hab : a < b
    · simp [listCharLt, hab] at h1
    · by_cases hba : b < a
      · simp [listCharLt, hba] at h2
      · have he : a = b := le_antisymm (le_of_not_lt hba) (le_of_not_lt hab)
        subst he
        simp only [listCharLt, if_neg hab] at h1 h2
        rw [listCharLt_connex as bs h1 h2]

theorem listCharLt_trans :
    ∀ a b c, listCharLt a b = true → listCharLt b c = true → listCharLt a c = true := by
  intro a
  induction a with
  | nil =>
    intro b c h1 h2
    cases b with
    | nil => simp [listCharLt] at h1
    | cons y ys =>
      cases c with
      | nil => simp [listCharLt] at h2
      | cons z zs => simp [listCharLt]
  | cons x xs ih =>
    intro b c h1 h2
    cases b with
    | nil => simp [listCharLt] at h1
    | cons y ys =>
      cases c with
      | nil => simp [listCharLt] at h2
      | cons z zs =>
        simp only [listCharLt] at h1 h2 ⊢
        by_cases hxy : x < y
        · by_cases hyz : y < z
          · simp [lt_trans hxy hyz]
          · by_cases hzy : z < y
            · simp [hyz, hzy] at h2
            · have : y = z := le_antisymm (le_of_not_lt hzy) (le_of_not_lt hyz)
              subst this
              simp [hxy]
        · by_cases hyx : y < x
          · simp [hxy, hyx] at h1
          · have hxyeq : x = y := le_antisymm (le_of_not_lt hyx) (le_of_not_lt hxy)
            subst hxyeq
            simp only [if_neg hxy, lt_irrefl, if_false] at h1
            by_cases hxz : x < z
            · simp [hxz]
            · by_cases hzx : z < x
              · simp [hxz, hzx] at h2
              · have : x = z := le_antisymm (le_of_not_lt hzx) (le_of_not_lt hxz)
                subst this
                simp only [lt_irrefl, if_false] at h2 ⊢
                exact ih ys zs h1 h2

theorem string_eq_of_toList_eq {a b : String} (h : a.toList = b.toList) : a = b := by
  cases a; cases b
  exact congrArg String.mk (by simpa [String.toList] using h)

instance : IsTotal String pyLe :=
  ⟨fun a b => by
    unfold pyLe pyStrLt
    by_cases h : listCharLt b.toList a.toList = true
    · right
      exact listCharLt_asymm _ _ h
    · left
      simpa using h⟩

instance : IsTrans String pyLe :=
  ⟨fun a b c h1 h2 => by
    unfold pyLe pyStrLt at h1 h2 ⊢
    by_cases hca : listCharLt c.toList a.toList = true
    · exfalso
      by_cases hbc : listCharLt b.toList c.toList = true
      · have ht := listCharLt_trans _ _ _ hbc hca
        rw [ht] at h1
        exact Bool.noConfusion h1
      · have hbceq : b.toList = c.toList :=
          listCharLt_connex _ _ (by simpa using hbc) h2
        rw [← hbceq] at hca
        rw [hca] at h1
        exact Bool.noConfusion h1
    · simpa using hca⟩

instance : IsAntisymm String pyLe :=
  ⟨fun a b h1 h2 => by
    unfold pyLe pyStrLt at h1 h2
    exact string_eq_of_toList_eq (listCharLt_connex _ _ h2 h1)⟩

instance : IsTotal (String × J) pairKeyLe :=
  ⟨fun a b => total_of pyLe a.1 b.1⟩

instance : IsTrans (String × J) pairKeyLe :=
  ⟨fun _ _ _ h1 h2 => Trans.trans (r := pyLe) (s := pyLe) h1 h2⟩

theorem mem_pySet {x : String} {l : List String} : x ∈ pySet l ↔ x ∈ l := by
  unfold pySet sortStrings
  rw [List.mem_insertionSort, List.mem_dedup]

/-! ### Lemmas for C4 -/

theorem mem_pySetDiff_null {x : String} {l : List String} :
    x ∈ pySetDiff (pySet l) ["null"] ↔ x ∈ l ∧ x ≠ "null" := by
  unfold pySetDiff
  simp [List.mem_filter, mem_pySet]

theorem get_usable_types_filter_null (types : List String) :
    get_usable_types types = get_usable_types (types.filter (fun s => !(s == "null"))) := by
  unfold get_usable_types pySetInter
  refine List.filter_congr ?_
  intro x _
  have h1 : (x ∈ pySetDiff (pySet types) ["null"]) ↔
      (x ∈ pySetDiff (pySet (types.filter (fun s => !(s == "null")))) ["null"]) := by
    rw [mem_pySetDiff_null, mem_pySetDiff_null, List.mem_filter]
    constructor
    · rintro ⟨hm, hn⟩
      exact ⟨⟨hm, by simpa using hn⟩, hn⟩
    · rintro ⟨⟨hm, _⟩, hn⟩
      exact ⟨hm, hn⟩
  simp [h1]

theorem get_usable_types_sublist (types : List String) :
    List.Sublist (get_usable_types types) (pySet JSONSCHEMA_TYPES) :=
  List.filter_sublist _

theorem canon7_eval :
    pySet JSONSCHEMA_TYPES =
      ["array", "boolean", "integer", "null", "number", "object", "string"] := by decide

theorem mgt_null_discard (types : List String) :
    most_general_type types = most_general_type (types.filter (fun s => !(s == "null"))) := by
  by_cases h : types = []
  · subst h; rfl
  · by_cases h2 : types.filter (fun s => !(s == "null")) = []
    · unfold most_general_type
      rw [if_neg h, if_pos h2]
      have hu : get_usable_types types = [] := by
        rw [get_usable_types_filter_null, h2]
        rfl
      rw [hu]
      rfl
    · unfold most_general_type
      rw [if_neg h, if_neg h2, get_usable_types_filter_null]

set_option maxRecDepth 8000 in
theorem mgt_usable_cases :
    ∀ u ∈ (["array", "boolean", "integer", "null", "number", "object", "string"] :
        List String).sublists,
      ((∀ t ∈ u, coversB t u = false) → mgtOfUsable u = "string") ∧
      (∀ t ∈ u, coversB t u = true →
        (∀ w ∈ u, pyLt w t → coversB w u = false) → mgtOfUsable u = t) := by decide

/-- C4: `most_general_type` discards null (filtering nulls out of the
observed list does not change the result), returns `"string"` on the empty
set, returns `"string"` whenever no single usable kind's castable set covers
the whole usable set, returns the first (in Python's sorted order) covering
kind when one exists — covering kinds are exactly the highest-scoring kinds,
since a kind's score is `|castable ∩ usable| ≤ |usable|` with equality iff it
covers — and in particular `most_general_type({integer, boolean}) = integer`,
`most_general_type({string, integer}) = string`, and
`most_general_type({}) = string`. -/
theorem C4_most_general_type :
    (∀ types : List String,
        most_general_type types = most_general_type (types.filter (fun s => !(s == "null")))) ∧
    most_general_type [] = "string" ∧
    (∀ types : List String, types ≠ [] →
        (∀ t ∈ get_usable_types types, coversB t (get_usable_types types) = false) →
        most_general_type types = "string") ∧
    (∀ types : List String, ∀ t : String, types ≠ [] →
        t ∈ get_usable_types types →
        coversB t (get_usable_types types) = true →
        (∀ w ∈ get_usable_types types, pyLt w t → coversB w (get_usable_types types) = false) →
        most_general_type types = t) ∧
    most_general_type ["integer", "boolean"] = "integer" ∧
    most_general_type ["string", "integer"] = "string" := by
  refine ⟨mgt_null_discard, rfl, ?_, ?_, by decide, by decide⟩
  · intro types hne hnc
    have hmem := List.mem_sublists.mpr (canon7_eval ▸ get_usable_types_sublist types)
    have h := (mgt_usable_cases _ hmem).1 hnc
    unfold most_general_type
    rw [if_neg hne]
    exact h
  · intro types t hne hmemt hc hfirst
    have hmem := List.mem_sublists.mpr (canon7_eval ▸ get_usable_types_sublist types)
    have h := (mgt_usable_cases _ hmem).2 t hmemt hc hfirst
    unfold most_general_type
    rw [if_neg hne]
    exact h

/-- Witness for C4: the fallback conjunct applied at `{array, boolean}` (no
kind covers both) and the first-covering-kind conjunct applied at
`{boolean, integer}` with `integer`. -/
theorem C4_most_general_type_witness :
    most_general_type ["array", "boolean"] = "string" ∧
    most_general_type ["boolean", "integer"] = "integer" :=
  ⟨C4_most_general_type.2.2.1 ["array", "boolean"] (by decide) (by decide),
   C4_most_general_type.2.2.2.1 ["boolean", "integer"] "integer" (by decide) (by decide)
     (by decide) (by decide)⟩

/-! ### Lemmas for C10 (and C2): the name substitutions preserve
nonemptiness -/

theorem subCapsUnderscore_ne_nil (prev : Option Char) (c : Char) (rest : List Char) :
    subCapsUnderscore prev (c :: rest) ≠ [] := by
  simp only [subCapsUnderscore]
  split <;> simp

theorem subLowerUnderscoreUpper_ne_nil (c : Char) (rest : List Char) :
    subLowerUnderscoreUpper (c :: rest) ≠ [] := by
  match rest with
  | [] => simp [subLowerUnderscoreUpper]
  | [d] => simp [subLowerUnderscoreUpper]
  | d :: e :: t =>
    simp only [subLowerUnderscoreUpper]
    split <;> simp

theorem subAcronym_ne_nil (prev : Option Char) (c : Char) (rest : List Char) :
    subAcronym prev (c :: rest) ≠ [] := by
  simp only [subAcronym]
  split <;> simp

theorem subCamelBoundary_ne_nil (c : Char) (rest : List Char) :
    subCamelBoundary (c :: rest) ≠ [] := by
  match rest with
  | [] => simp [subCamelBoundary]
  | d :: t =>
    simp only [subCamelBoundary]
    split <;> simp

theorem inflectionUnderscore_ne_nil (l : List Char) (hl : l ≠ []) :
    inflectionUnderscore l ≠ [] := by
  unfold inflectionUnderscore
  obtain ⟨c, rest, hc⟩ := List.exists_cons_of_ne_nil hl
  rw [hc]
  obtain ⟨a, t, ha⟩ := List.exists_cons_of_ne_nil (subAcronym_ne_nil none c rest)
  rw [ha]
  obtain ⟨b, u, hb⟩ := List.exists_cons_of_ne_nil (subCamelBoundary_ne_nil a t)
  rw [hb]
  simp

theorem string_mk_ne_empty {l : List Char} (h : l ≠ []) : String.mk l ≠ "" := by
  intro he
  exact h (by simpa [String.toList] using congrArg String.toList he)

theorem inflect_name_some_of_ne_empty :
    ∀ name : String, name ≠ "" → ∃ r, inflect_name name = some r ∧ r ≠ "" := by
  intro name hne
  have h0 : name.toList ≠ [] := by
    intro h
    exact hne (string_eq_of_toList_eq (by rw [h]; rfl))
  have hl1 : subNonAlnum name.toList ≠ [] := by
    intro h
    have hlen := congrArg List.length h
    simp [subNonAlnum] at hlen
    exact h0 (List.length_eq_zero.mp hlen)
  obtain ⟨a1, t1, h1⟩ := List.exists_cons_of_ne_nil hl1
  have hl2 : subCapsUnderscore none (subNonAlnum name.toList) ≠ [] := by
    rw [h1]; exact subCapsUnderscore_ne_nil _ _ _
  obtain ⟨a2, t2, h2⟩ := List.exists_cons_of_ne_nil hl2
  have hl3 : subLowerUnderscoreUpper (subCapsUnderscore none (subNonAlnum name.toList)) ≠ [] := by
    rw [h2]; exact subLowerUnderscoreUpper_ne_nil _ _
  obtain ⟨a3, t3, h3⟩ := List.exists_cons_of_ne_nil hl3
  simp only [inflect_name, h3]
  refine ⟨_, rfl, ?_⟩
  apply string_mk_ne_empty
  apply inflectionUnderscore_ne_nil
  split <;> simp

/-- C10: `inflect_name` indexes `name[0]` unguarded after three
length-preserving-or-growing substitutions, so the empty property name
raises an IndexError (modelled as `none`); for every nonempty name the index
is in bounds and the returned normalized name is nonempty. -/
theorem C10_inflect_name_unguarded_index :
    inflect_name "" = none ∧
    ∀ name : String, name ≠ "" → ∃ r, inflect_name name = some r ∧ r ≠ "" :=
  ⟨rfl, inflect_name_some_of_ne_empty⟩

/-- Witness for C10: the empty name raises; the name `"a"` is normalized to
a nonempty name. -/
theorem C10_inflect_name_unguarded_index_witness :
    inflect_name "" = none ∧ ∃ r, inflect_name "a" = some r ∧ r ≠ "" :=
  ⟨C10_inflect_name_unguarded_index.1,
   C10_inflect_name_unguarded_index.2 "a" (by decide)⟩

/-! ### Lemmas and theorems for C2 -/

theorem mapM_inflect_some :
    ∀ l : List String, (∀ s ∈ l, s ≠ "") → ∃ out, l.mapM inflect_name = some out := by
  intro l h
  induction l with
  | nil => exact ⟨[], rfl⟩
  | cons a t ih =>
    obtain ⟨r, hr, _⟩ := inflect_name_some_of_ne_empty a (h a (List.mem_cons_self a t))
    obtain ⟨out, hout⟩ := ih (fun s hs => h s (List.mem_cons_of_mem a hs))
    refine ⟨r :: out, ?_⟩
    rw [List.mapM_cons, hr, hout]
    rfl

theorem flattenKeyLoop_dichotomy (sep : String) :
    ∀ todo done,
      (String.intercalate sep (flattenKeyLoop sep done todo)).length < 63 ∨
      flattenKeyLoop sep done todo = done ++ todo.map abbrevSeg := by
  intro todo
  induction todo with
  | nil =>
    intro done
    right
    simp [flattenKeyLoop]
  | cons k rest ih =>
    intro done
    simp only [flattenKeyLoop]
    split
    · rcases ih (done ++ [abbrevSeg k]) with h | h
      · left; exact h
      · right
        rw [h]
        simp
    · left
      omega

/-- Counterexample for C2: a single 70-digit property name inflects to a
71-character name; abbreviation cannot shorten it (camelizing removes no
digits), yet `flatten_key` raises nothing and returns the 71-character name,
at or above the 63-character cap, instead of a `NameLengthExhaustedError`
(no such error exists anywhere in the code). -/
theorem C2_counterexample :
    flatten_key (String.mk (List.replicate 70 '7')) [] "__" =
      some (String.mk ('_' :: List.replicate 70 '7')) ∧
    63 ≤ (String.mk ('_' :: List.replicate 70 '7')).length := by
  exact ⟨by decide, by decide⟩

/-- C2 (amended): for every path of nonempty segments, `flatten_key`
completes without raising; the returned name either has length strictly
below 63 or is exactly the join of the fully abbreviated segments — i.e.
when abbreviating every segment still leaves the name at or above the
63-character cap, the over-long name is returned silently rather than any
error being raised. -/
theorem C2_flatten_key_never_raises :
    ∀ (k : String) (parent_key : List String) (sep : String),
      (∀ s ∈ parent_key ++ [k], s ≠ "") →
      ∃ infl r,
        (parent_key ++ [k]).mapM inflect_name = some infl ∧
        flatten_key k parent_key sep = some r ∧
        (r.length < 63 ∨ r = String.intercalate sep (infl.map abbrevSeg)) := by
  intro k parent sep hall
  obtain ⟨infl, hinfl⟩ := mapM_inflect_some (parent ++ [k]) hall
  refine ⟨infl, String.intercalate sep (flattenKeyLoop sep [] infl), hinfl, ?_, ?_⟩
  · unfold flatten_key
    rw [hinfl]
    rfl
  · rcases flattenKeyLoop_dichotomy sep infl [] with h | h
    · left
      exact h
    · right
      rw [h]
      simp

/-- Witness for C2's amended theorem at the one-segment path `["a"]`. -/
theorem C2_flatten_key_never_raises_witness :
    (∀ s ∈ ([] : List String) ++ ["a"], s ≠ "") ∧
    (∃ infl r,
      (([] : List String) ++ ["a"]).mapM inflect_name = some infl ∧
      flatten_key "a" [] "__" = some r ∧
      (r.length < 63 ∨ r = String.intercalate "__" (infl.map abbrevSeg))) :=
  ⟨by decide, C2_flatten_key_never_raises "a" [] "__" (by decide)⟩

/-! ### Theorems for C3 -/

/-- Counterexample for C3: with one key property and a failing bulk-ingest
statement, the staging drop statement is never attempted — `load_csv` has no
try/finally, so an exception from any earlier statement skips the drop,
contradicting that the drop is attempted regardless of which prior step
failed. -/
theorem C3_counterexample :
    BatchStep.stagingDrop ∉
      attemptedSteps (fun s => s == BatchStep.bulkIngest) (load_csv_steps 1) := by decide

/-- C3 (amended): the staging drop statement is attempted exactly when every
prior statement of the batch succeeded; any earlier failure propagates out
of `load_csv` before the drop is reached (statement-level cleanup on failure
is absent; the staging relation is a session-scoped TEMP table whose removal
is left to the database session outside this code). -/
theorem C3_drop_only_on_success :
    ∀ (keyCount : Nat) (fails : BatchStep → Bool),
      BatchStep.stagingDrop ∈ attemptedSteps fails (load_csv_steps keyCount) ↔
        ∀ s ∈ (load_csv_steps keyCount).dropLast, fails s = false := by
  intro keyCount fails
  match keyCount with
  | 0 =>
    cases h1 : fails .stagingCreate <;> cases h2 : fails .bulkIngest <;>
      cases h3 : fails .insertStep <;>
        simp_all [load_csv_steps, attemptedSteps]
  | n + 1 =>
    have hpos : (0 : Nat) < n + 1 := Nat.succ_pos n
    cases h1 : fails .stagingCreate <;> cases h2 : fails .bulkIngest <;>
      cases h3 : fails .mergeUpdate <;> cases h4 : fails .insertStep <;>
        simp_all [load_csv_steps, attemptedSteps, hpos]

/-- Witness for C3's amended theorem: with no failures, the drop is
attempted. -/
theorem C3_drop_only_on_success_witness :
    BatchStep.stagingDrop ∈ attemptedSteps (fun _ => false) (load_csv_steps 1) :=
  (C3_drop_only_on_success 1 (fun _ => false)).mpr (by decide)

/-! ### Theorems for C7 -/

/-- C7: when the stream declares no key properties, the statement sequence
of `load_csv` contains no merge-update statement, and running the batch
against the modelled database appends every staging row to the target
verbatim, so the target row count grows by exactly the batch size. -/
theorem C7_blind_insert {Row K : Type} [BEq K] (pk : Row → K)
    (batch target : List Row) :
    BatchStep.mergeUpdate ∉ load_csv_steps 0 ∧
    (loadBatch pk 0 batch target).1 = target ++ batch ∧
    (loadBatch pk 0 batch target).1.length = target.length + batch.length := by
  refine ⟨by decide, rfl, ?_⟩
  show (target ++ batch).length = target.length + batch.length
  simp

/-- Witness for C7 at a concrete batch. -/
theorem C7_blind_insert_witness :
    (loadBatch (fun r : Nat => r) 0 [1, 2] [5]).1 = [5, 1, 2] := by
  rw [(C7_blind_insert (fun r : Nat => r) [1, 2] [5]).2.1]
  rfl

/-! ### Theorems for C9 -/

/-- C9: for every input that is not a nonempty mapping — `None`, an empty
mapping, a list, or a scalar — `flatten_record` returns the empty mapping
immediately (the `if not d or not isinstance(d, dict)` guard), without
raising and without recursing (any fuel, including zero, suffices). -/
theorem C9_flatten_record_non_mapping :
    ∀ (fuel : Nat) (d : J) (parent_key : List String) (sep : String),
      (∀ fields, d = J.obj fields → fields = []) →
      flatten_record fuel d parent_key sep = .ok [] := by
  intro fuel d parent sep h
  have hcond : (!pyTruthy d || !J.isObj d) = true := by
    cases d with
    | obj fields =>
      have := h fields rfl
      subst this
      rfl
    | null => rfl
    | bool b => simp [J.isObj]
    | num n => simp [J.isObj]
    | str s => simp [J.isObj]
    | arr l => simp [J.isObj]
  rw [flatten_record.eq_def]
  split
  rw [if_pos hcond]

/-- Witness for C9 at a list value (and fuel zero). -/
theorem C9_flatten_record_non_mapping_witness :
    flatten_record 0 (J.arr [J.num 1]) [] "__" = .ok [] :=
  C9_flatten_record_non_mapping 0 (J.arr [J.num 1]) [] "__"
    (fun _ hf => J.noConfusion hf)

/-! ### Lemmas and theorems for C6 -/

theorem flatten_schema_f_eq (fuel : Nat) (d : J) (pk : List String) (sep : String) :
    flatten_schema_f fuel d pk sep =
      (fsRawItems fuel d pk sep).bind fsCheck := by
  cases fuel <;> rfl

theorem nodup_of_sorted_noAdjDup :
    ∀ l : List (String × J), List.Pairwise pairKeyLe l → hasAdjDupKey l = false →
      (l.map Prod.fst).Nodup
  | [] => by simp
  | [a] => by simp
  | a :: b :: t => by
    intro hp hadj
    simp only [hasAdjDupKey, Bool.or_eq_false_iff] at hadj
    obtain ⟨hne, hrest⟩ := hadj
    have hne' : a.1 ≠ b.1 := by simpa using hne
    rw [List.pairwise_cons] at hp
    obtain ⟨hfirst, hptail⟩ := hp
    have ihres := nodup_of_sorted_noAdjDup (b :: t) hptail hrest
    simp only [List.map_cons, List.nodup_cons]
    refine ⟨?_, by simpa using ihres⟩
    intro hmem
    simp only [List.map_cons, List.mem_cons, List.mem_map] at hmem
    rcases hmem with hab | ⟨c, hct, hca⟩
    · exact hne' hab
    · have hle_ab : pyLe a.1 b.1 := hfirst b (List.mem_cons_self b t)
      have hle_bc : pyLe b.1 c.1 := by
        rw [List.pairwise_cons] at hptail
        exact hptail.1 c hct
      have hle_ba : pyLe b.1 a.1 := by
        rw [← hca]
        exact hle_bc
      exact hne' (IsAntisymm.antisymm (r := pyLe) _ _ hle_ab hle_ba)

/-- C6: whenever the items one level of `flatten_schema` collects contain
the same generated column name twice (two distinct property paths mapping to
one name), `flatten_schema` raises the duplicate-column `ValueError`, and
`DbSync.__init__` — which only stores configuration and computes
`flatten_schema`, issuing no query — propagates it, so the construction
fails before any DDL or DML can be issued. -/
theorem C6_schema_conflict :
    ∀ (fuel : Nat) (d : J) (items : List (String × J)),
      fsRawItems fuel d [] "__" = .ok items →
      ¬ (items.map Prod.fst).Nodup →
      (∃ e, flatten_schema fuel d = .error e) ∧
      (∀ schema_name use_simple, ∃ e,
        dbSyncInit fuel schema_name use_simple d = .error e) := by
  intro fuel d items hraw hdup
  have hsorted : List.Pairwise pairKeyLe (sortPairsByKey items) :=
    List.sorted_insertionSort pairKeyLe items
  have hadj : hasAdjDupKey (sortPairsByKey items) = true := by
    cases hcase : hasAdjDupKey (sortPairsByKey items) with
    | true => rfl
    | false =>
      exfalso
      have hnodup := nodup_of_sorted_noAdjDup _ hsorted hcase
      have hperm : ((sortPairsByKey items).map Prod.fst).Perm (items.map Prod.fst) :=
        (List.perm_insertionSort pairKeyLe items).map Prod.fst
      exact hdup (hperm.nodup_iff.mp hnodup)
  have hfs : flatten_schema fuel d =
      .error "ValueError: Duplicate column name produced in schema" := by
    unfold flatten_schema
    rw [flatten_schema_f_eq fuel d [] "__", hraw]
    simp only [Except.bind, fsCheck, hadj]
    rfl
  refine ⟨⟨_, hfs⟩, fun sn us =>
    ⟨"ValueError: Duplicate column name produced in schema", ?_⟩⟩
  unfold dbSyncInit
  rw [hfs]
  rfl

/-- Witness for C6: a schema whose properties `"a b"` and `"a_b"` both
normalize to the column name `a_b`. -/
theorem C6_schema_conflict_witness :
    ∃ e, flatten_schema 2
      (J.obj [("properties", J.obj [
        ("a b", J.obj [("type", J.str "string")]),
        ("a_b", J.obj [("type", J.str "integer")])])]) = .error e :=
  (C6_schema_conflict 2
    (J.obj [("properties", J.obj [
      ("a b", J.obj [("type", J.str "string")]),
      ("a_b", J.obj [("type", J.str "integer")])])])
    [("a_b", J.obj [("type", J.str "string")]), ("a_b", J.obj [("type", J.str "integer")])]
    rfl (by decide)).1

/-! ### Lemmas and theorems for C8 -/

theorem except_bind_ok {ε α β : Type} (a : α) (f : α → Except ε β) :
    (Except.ok a >>= f : Except ε β) = f a := rfl

theorem except_bind_error {ε α β : Type} (e : ε) (f : α → Except ε β) :
    (Except.error e >>= f : Except ε β) = Except.error e := rfl

theorem except_pure_eq {ε α : Type} (a : α) : (pure a : Except ε α) = Except.ok a := rfl

theorem mapM_mem_within {α β : Type} {f : α → Except String (List β)} :
    ∀ (l : List α) (out : List (List β)), l.mapM f = .ok out →
      ∀ a ∈ l, ∃ ya, f a = .ok ya ∧ ya <:+: out.flatten := by
  intro l
  induction l with
  | nil =>
    intro out _ a ha
    exact absurd ha (List.not_mem_nil a)
  | cons x xs ih =>
    intro out hout a ha
    rw [List.mapM_cons] at hout
    cases hx : f x with
    | error e =>
      rw [hx] at hout
      exact absurd hout (by simp [except_bind_error])
    | ok y0 =>
      rw [hx, except_bind_ok] at hout
      cases hxs : xs.mapM f with
      | error e =>
        rw [hxs] at hout
        exact absurd hout (by simp [except_bind_error])
      | ok ys =>
        rw [hxs, except_bind_ok] at hout
        have hout' : out = y0 :: ys := by
          simpa [except_pure_eq] using hout.symm
        subst hout'
        rcases List.mem_cons.mp ha with hax | hmem
        · subst hax
          exact ⟨y0, hx, [], ys.flatten, by simp⟩
        · obtain ⟨ya, hya, hinf⟩ := ih ys hxs a hmem
          refine ⟨ya, hya, ?_⟩
          have : ys.flatten <:+: (y0 :: ys).flatten := by
            simp only [List.flatten_cons]
            exact (List.suffix_append y0 ys.flatten).isInfix
          exact hinf.trans this

theorem frField_ok_cases
    (child : J → List String → Except String (List (String × J)))
    (pk : List String) (sep k : String) (v : J) (ya : List (String × J)) (nk : String)
    (hk : flatten_key k pk sep = some nk)
    (h : frField child pk sep k v = .ok ya) :
    (∃ childItems, child v (pk ++ [k]) = .ok childItems ∧
        ya = childItems ++ [(nk, J.str (jsonDumps v))] ∧ ∃ fo, v = J.obj fo) ∨
    (ya = [(nk, J.str (jsonDumps v))] ∧ ∃ es, v = J.arr es) ∨
    (ya = [(nk, v)] ∧ (∀ fo, v ≠ J.obj fo) ∧ (∀ es, v ≠ J.arr es)) := by
  unfold frField at h
  rw [hk] at h
  simp only [exceptOfOption, except_bind_ok] at h
  cases v with
  | obj fo =>
    cases hc : child (J.obj fo) (pk ++ [k]) with
    | error e =>
      rw [hc, except_bind_error] at h
      exact absurd h (by simp)
    | ok childItems =>
      rw [hc, except_bind_ok] at h
      left
      refine ⟨childItems, rfl, ?_, fo, rfl⟩
      simpa [except_pure_eq] using h.symm
  | arr es =>
    right; left
    exact ⟨by simpa [except_pure_eq] using h.symm, es, rfl⟩
  | null =>
    right; right
    exact ⟨by simpa [except_pure_eq] using h.symm, fun _ hf => J.noConfusion hf,
      fun _ hf => J.noConfusion hf⟩
  | bool b =>
    right; right
    exact ⟨by simpa [except_pure_eq] using h.symm, fun _ hf => J.noConfusion hf,
      fun _ hf => J.noConfusion hf⟩
  | num n =>
    right; right
    exact ⟨by simpa [except_pure_eq] using h.symm, fun _ hf => J.noConfusion hf,
      fun _ hf => J.noConfusion hf⟩
  | str s =>
    right; right
    exact ⟨by simpa [except_pure_eq] using h.symm, fun _ hf => J.noConfusion hf,
      fun _ hf => J.noConfusion hf⟩

/-- C8: for every record, each nested mapping value is registered twice —
its (recursively flattened) children appear as separate items, immediately
followed by the mapping's own path bound to the whole value serialized with
`json.dumps`; a list value is registered once as its `json.dumps`
serialization (never recursed into); any other value is registered as
itself. -/
theorem C8_flatten_record_registers_twice :
    ∀ (fuel : Nat) (fields : List (String × J)) (parent_key : List String) (sep : String)
      (items : List (String × J)),
      frRawItems (fuel + 1) (J.obj fields) parent_key sep = .ok items →
      ∀ k v, (k, v) ∈ fields → ∀ nk, flatten_key k parent_key sep = some nk →
        ((∃ fo, v = J.obj fo) →
          ∃ childItems, flatten_record fuel v (parent_key ++ [k]) sep = .ok childItems ∧
            (childItems ++ [(nk, J.str (jsonDumps v))]) <:+: items) ∧
        ((∃ es, v = J.arr es) → (nk, J.str (jsonDumps v)) ∈ items) ∧
        ((∀ fo, v ≠ J.obj fo) → (∀ es, v ≠ J.arr es) → (nk, v) ∈ items) := by
  intro fuel fields parent_key sep items hraw k v hmem nk hk
  have hfne : fields ≠ [] := by
    intro hnil
    subst hnil
    exact absurd hmem (List.not_mem_nil _)
  have hcond : (!pyTruthy (J.obj fields) || !J.isObj (J.obj fields)) = false := by
    simp [pyTruthy, J.isObj, hfne]
  rw [frRawItems, hcond] at hraw
  simp only [Bool.false_eq_true, if_false] at hraw
  unfold frLevelItems at hraw
  cases hm : fields.mapM
      (fun kv => frField (fun v2 pk => flatten_record fuel v2 pk sep) parent_key sep kv.1 kv.2) with
  | error e =>
    rw [hm] at hraw
    exact absurd hraw (by simp [Except.map])
  | ok lists =>
    rw [hm] at hraw
    have hitems : items = lists.flatten := by
      simpa [Except.map] using hraw.symm
    subst hitems
    obtain ⟨ya, hya, hinf⟩ := mapM_mem_within fields lists hm (k, v) hmem
    rcases frField_ok_cases _ parent_key sep k v ya nk hk hya with
      ⟨ci, hci, hyaeq, hobj0⟩ | ⟨hyaeq, hes⟩ | ⟨hyaeq, hno, hna⟩
    · obtain ⟨fo, hvo⟩ := hobj0
      refine ⟨fun _ => ⟨ci, hci, ?_⟩, fun hes => ?_, fun hno _ => ?_⟩
      · rw [← hyaeq]
        exact hinf
      · obtain ⟨es, hva⟩ := hes
        rw [hvo] at hva
        exact J.noConfusion hva
      · exact absurd hvo (hno fo)
    · refine ⟨fun hobj => ?_, fun _ => ?_, fun _ hna => ?_⟩
      · obtain ⟨fo, hv⟩ := hobj
        obtain ⟨es, hv2⟩ := hes
        rw [hv] at hv2
        exact absurd hv2 (by intro hf; exact J.noConfusion hf)
      · have : (nk, J.str (jsonDumps v)) ∈ ya := by
          rw [hyaeq]
          exact List.mem_singleton.mpr rfl
        exact hinf.subset this
      · obtain ⟨es, hv⟩ := hes
        exact absurd hv (hna es)
    · refine ⟨fun hobj => ?_, fun hes => ?_, fun _ _ => ?_⟩
      · obtain ⟨fo, hv⟩ := hobj
        exact absurd hv (hno fo)
      · obtain ⟨es, hv⟩ := hes
        exact absurd hv (hna es)
      · have : (nk, v) ∈ ya := by
          rw [hyaeq]
          exact List.mem_singleton.mpr rfl
        exact hinf.subset this

/-- Witness for C8 at a record with one nested mapping, one list, and one
scalar field: the nested mapping's children and its own serialized leaf form
a contiguous block of the collected items. -/
theorem C8_flatten_record_registers_twice_witness :
    frRawItems 2
        (J.obj [("a", J.obj [("b", J.num 1)]), ("xs", J.arr [J.num 1]), ("n", J.num 7)])
        [] "__" =
      .ok [("a__b", J.num 1), ("a", J.str (jsonDumps (J.obj [("b", J.num 1)]))),
           ("xs", J.str (jsonDumps (J.arr [J.num 1]))), ("n", J.num 7)] ∧
    (∃ childItems,
      flatten_record 1 (J.obj [("b", J.num 1)]) ([] ++ ["a"]) "__" = .ok childItems ∧
      (childItems ++ [("a", J.str (jsonDumps (J.obj [("b", J.num 1)])))]) <:+:
        [("a__b", J.num 1), ("a", J.str (jsonDumps (J.obj [("b", J.num 1)]))),
         ("xs", J.str (jsonDumps (J.arr [J.num 1]))), ("n", J.num 7)]) :=
  ⟨rfl,
   (C8_flatten_record_registers_twice 1
      [("a", J.obj [("b", J.num 1)]), ("xs", J.arr [J.num 1]), ("n", J.num 7)] [] "__"
      [("a__b", J.num 1), ("a", J.str (jsonDumps (J.obj [("b", J.num 1)]))),
       ("xs", J.str (jsonDumps (J.arr [J.num 1]))), ("n", J.num 7)]
      rfl "a" (J.obj [("b", J.num 1)]) (List.mem_cons_self _ _) "a" rfl).1
     ⟨[("b", J.num 1)], rfl⟩⟩

/-! ### Lemmas and theorems for C1 -/

theorem except_map_ok {ε α β : Type} (a : α) (f : α → β) :
    (Except.ok a : Except ε α).map f = Except.ok (f a) := rfl

theorem except_map_error {ε α β : Type} (e : ε) (f : α → β) :
    (Except.error e : Except ε α).map f = Except.error e := rfl

theorem ok_of_exceptIsOk {ε α : Type} {x : Except ε α} (h : exceptIsOk x = true) :
    ∃ a, x = .ok a := by
  cases x with
  | ok a => exact ⟨a, rfl⟩
  | error e => exact absurd h (by simp [exceptIsOk])

theorem mapM_colclauses_ok (u : Bool) :
    ∀ l : List (String × J), (∀ p ∈ l, exceptIsOk (column_type p.2 u) = true) →
      ∃ adds, l.mapM (fun np => (column_type np.2 u).map (fun t => (np.1, t))) =
          .ok adds ∧ adds.map Prod.fst = l.map Prod.fst := by
  intro l
  induction l with
  | nil => exact fun _ => ⟨[], rfl, rfl⟩
  | cons p t ih =>
    intro h
    obtain ⟨ct, hct⟩ := ok_of_exceptIsOk (h p (List.mem_cons_self p t))
    obtain ⟨adds, hadds, hnames⟩ := ih (fun q hq => h q (List.mem_cons_of_mem p hq))
    refine ⟨(p.1, ct) :: adds, ?_, by simp [hnames]⟩
    rw [List.mapM_cons, hct, except_map_ok, except_bind_ok, hadds, except_bind_ok]
    rfl

theorem hasKey_eq_isSome (m : List (String × α)) (k : String) :
    pyDictHasKey m k = (pyDictGet? m k).isSome := by
  induction m with
  | nil => rfl
  | cons p t ih =>
    unfold pyDictHasKey pyDictGet?
    cases hpk : (p.1 == k) with
    | true =>
      rw [List.any_cons, hpk,
        @List.find?_cons_of_pos _ (fun q => q.1 == k) p t hpk]
      simp
    | false =>
      rw [List.any_cons, hpk,
        @List.find?_cons_of_neg _ (fun q => q.1 == k) p t (by simp [hpk])]
      simpa [pyDictHasKey, pyDictGet?] using ih

theorem collectReplace_error_of_missing (dict : List (String × (String × String))) (u : Bool) :
    ∀ l : List (String × J),
      (∀ p ∈ l, exceptIsOk (column_type p.2 u) = true) →
      (∃ p ∈ l, pyDictGet? dict p.1.pyLower = none) →
      ∃ e, collectReplace dict u l = .error e := by
  intro l
  induction l with
  | nil =>
    rintro _ ⟨p, hp, _⟩
    exact absurd hp (List.not_mem_nil p)
  | cons q t ih =>
    rintro hok ⟨p, hp, hpnone⟩
    obtain ⟨n, ps⟩ := q
    obtain ⟨ct, hct⟩ := ok_of_exceptIsOk (hok (n, ps) (List.mem_cons_self _ t))
    simp only [collectReplace]
    rw [hct, except_bind_ok]
    cases hget : pyDictGet? dict n.pyLower with
    | none =>
      exact ⟨"KeyError: " ++ n.pyLower, rfl⟩
    | some col =>
      rcases List.mem_cons.mp hp with hpq | hpt
      · rw [hpq] at hpnone
        rw [hpnone] at hget
        exact Option.noConfusion hget
      · obtain ⟨e, he⟩ :=
          ih (fun w hw => hok w (List.mem_cons_of_mem _ hw)) ⟨p, hpt, hpnone⟩
        exact ⟨e, by simp only [he, except_bind_error]⟩

/-- C1 (the code contradicts the claim): when at least one desired column
name is absent (case-insensitively) from the live columns and every column
type computes, `update_columns` issues exactly one Add action for each
absent column and never a Replace (drop) action — and then raises a
KeyError out of its replace scan, because `columns_dict[name_lower]` is read
before the `name_lower in columns_dict` membership guard.  The claim says it
completes without error; the code does not. -/
theorem C1_update_columns_unseen_raises :
    ∀ (fs : List (String × J)) (u : Bool) (live : List (String × String)),
      (∀ p ∈ fs, exceptIsOk (column_type p.2 u) = true) →
      (∃ p ∈ fs,
        pyDictGet? (pyDictOf (live.map (fun c => (c.1.pyLower, c)))) p.1.pyLower = none) →
      (∃ e, (update_columns fs u live).2 = .error e) ∧
      (update_columns fs u live).1.map colActionName =
        (fs.filter (fun np =>
          !pyDictHasKey (pyDictOf (live.map (fun c => (c.1.pyLower, c)))) np.1.pyLower)).map
          Prod.fst ∧
      ∀ n, ColAction.drop n ∉ (update_columns fs u live).1 := by
  intro fs u live hok hmiss
  obtain ⟨adds, hadds, hnames⟩ :=
    mapM_colclauses_ok u
      (fs.filter (fun np =>
        !pyDictHasKey (pyDictOf (live.map (fun c => (c.1.pyLower, c)))) np.1.pyLower))
      (fun p hp => hok p (List.mem_of_mem_filter hp))
  obtain ⟨e, he⟩ :=
    collectReplace_error_of_missing
      (pyDictOf (live.map (fun c => (c.1.pyLower, c)))) u fs hok hmiss
  have hupdate : update_columns fs u live =
      (adds.map (fun nt => ColAction.add nt.1 nt.2), .error e) := by
    simp only [update_columns, hadds, he]
  rw [hupdate]
  refine ⟨⟨e, rfl⟩, ?_, ?_⟩
  · rw [List.map_map]
    have : colActionName ∘ (fun nt : String × String => ColAction.add nt.1 nt.2) =
        Prod.fst := by
      funext nt
      rfl
    rw [this, hnames]
  · intro n hmem
    obtain ⟨nt, _, hbad⟩ := List.mem_map.mp hmem
    exact ColAction.noConfusion hbad

/-- Witness for C1: one desired column `new_col` of type string against an
empty live column set — the Add is issued, then the method raises. -/
theorem C1_update_columns_unseen_raises_witness :
    (∀ p ∈ [("new_col", J.obj [("type", J.str "string")])],
        exceptIsOk (column_type p.2 true) = true) ∧
    (∃ p ∈ [("new_col", J.obj [("type", J.str "string")])],
        pyDictGet? (pyDictOf (([] : List (String × String)).map (fun c => (c.1.pyLower, c))))
          p.1.pyLower = none) ∧
    ∃ e, (update_columns [("new_col", J.obj [("type", J.str "string")])] true []).2 =
        .error e :=
  ⟨by decide, by decide,
   (C1_update_columns_unseen_raises [("new_col", J.obj [("type", J.str "string")])] true []
      (by decide) (by decide)).1⟩

/-! ### Lemmas for C5 -/

theorem any_keys_eq_false {l : List (String × α)} {k : String}
    (h : k ∉ l.map Prod.fst) : (l.any fun q => q.1 == k) = false := by
  rw [List.any_eq_false]
  intro q hq
  simp only [beq_iff_eq]
  intro hqk
  exact h (List.mem_map.mpr ⟨q, hq, hqk⟩)

theorem pyDictOf_aux_nodup :
    ∀ (l m : List (String × α)), (((m ++ l).map Prod.fst).Nodup) →
      l.foldl (fun acc p => pyDictInsert acc p.1 p.2) m = m ++ l := by
  intro l
  induction l with
  | nil =>
    intro m _
    simp
  | cons p t ih =>
    intro m hnodup
    have hkey : p.1 ∉ m.map Prod.fst := by
      intro hmem
      rw [List.map_append] at hnodup
      have hdisj := (List.nodup_append.mp hnodup).2.2
      exact hdisj hmem (by simp)
    have hins : pyDictInsert m p.1 p.2 = m ++ [p] := by
      unfold pyDictInsert
      rw [any_keys_eq_false hkey]
      simp
    rw [List.foldl_cons, hins]
    have hre : (m ++ [p]) ++ t = m ++ p :: t := by simp
    rw [ih (m ++ [p]) (by rw [hre]; exact hnodup), hre]

theorem pyDictOf_eq_self {l : List (String × α)} (h : (l.map Prod.fst).Nodup) :
    pyDictOf l = l := by
  have := pyDictOf_aux_nodup l [] (by simpa using h)
  simpa [pyDictOf] using this

theorem find?_key_of_mem_nodup :
    ∀ {l : List (String × α)}, ((l.map Prod.fst).Nodup) →
      ∀ {n : String} {x : α}, (n, x) ∈ l →
        l.find? (fun c => c.1 == n) = some (n, x) := by
  intro l
  induction l with
  | nil =>
    intro _ n x hm
    exact absurd hm (List.not_mem_nil _)
  | cons p t ih =>
    intro hnodup n x hm
    rw [List.map_cons] at hnodup
    have hnodup' := List.nodup_cons.mp hnodup
    rcases List.mem_cons.mp hm with hph | hpt
    · rw [← hph]
      exact @List.find?_cons_of_pos _ (fun c => c.1 == n) (n, x) t (by simp)
    · have hpred : (p.1 == n) = false := by
        simp only [beq_eq_false_iff_ne, ne_eq]
        intro hc
        apply hnodup'.1
        rw [hc]
        exact List.mem_map.mpr ⟨(n, x), hpt, rfl⟩
      rw [@List.find?_cons_of_neg _ (fun c => c.1 == n) p t (by simp [hpred])]
      exact ih hnodup'.2 hpt

theorem pyDictGet?_mapSelf {live : List (String × String)}
    (hn : (live.map Prod.fst).Nodup) {n dt : String} (hm : (n, dt) ∈ live) :
    pyDictGet? (live.map (fun c => (c.1, c))) n = some (n, dt) := by
  unfold pyDictGet?
  have hfind : (live.map (fun c => (c.1, c))).find? (fun c => c.1 == n) =
      some (n, (n, dt)) := by
    have hkeys : ((live.map (fun c => (c.1, c))).map Prod.fst).Nodup := by
      rw [List.map_map]
      exact hn
    exact find?_key_of_mem_nodup hkeys
      (List.mem_map.mpr ⟨(n, dt), hm, rfl⟩)
  rw [hfind]
  rfl

theorem replaceEntry_name (dict : List (String × (String × String))) (u : Bool)
    (p : String × J) (q : String × String) (h : replaceEntry dict u p = some q) :
    q.1 = p.1 := by
  unfold replaceEntry at h
  rcases hct : column_type p.2 u with e | ct <;> rw [hct] at h
  · exact Option.noConfusion h
  · cases hget : pyDictGet? dict p.1.pyLower with
    | none =>
      rw [hget] at h
      exact Option.noConfusion h
    | some col =>
      rw [hget] at h
      have h2 : (if (pyDictHasKey dict p.1.pyLower && col.2.pyLower != ct.pyLower &&
          !(col.2.pyLower == "timestamp without time zone" &&
            ct.pyLower == "timestamp with time zone")) = true then
          some (p.1, ct) else none) = some q := h
      cases hcond : (pyDictHasKey dict p.1.pyLower && col.2.pyLower != ct.pyLower &&
          !(col.2.pyLower == "timestamp without time zone" &&
            ct.pyLower == "timestamp with time zone")) with
      | true =>
        rw [hcond, if_pos rfl] at h2
        cases h2
        rfl
      | false =>
        rw [hcond, if_neg (by simp)] at h2
        exact Option.noConfusion h2

theorem mem_pair_name {r : String × String} {a : ColAction}
    (h : a ∈ replacePairActs r) : colActionName a = r.1 := by
  rcases List.mem_cons.mp h with h1 | h2
  · rw [h1]
    rfl
  · rw [List.mem_singleton.mp h2]
    rfl

theorem flatMap_name_mem {reps : List (String × String)} {a : ColAction}
    (h : a ∈ reps.flatMap replacePairActs) : colActionName a ∈ reps.map Prod.fst := by
  obtain ⟨r, hr, ha⟩ := List.mem_flatMap.mp h
  rw [mem_pair_name ha]
  exact List.mem_map.mpr ⟨r, hr, rfl⟩

theorem pair_eq_of_nodup_keys :
    ∀ {l : List (String × J)}, ((l.map Prod.fst).Nodup) →
      ∀ {w p : String × J}, w ∈ l → p ∈ l → w.1 = p.1 → w = p := by
  intro l
  induction l with
  | nil =>
    intro _ w p hw _ _
    exact absurd hw (List.not_mem_nil _)
  | cons q t ih =>
    intro hnodup w p hw hp hk
    rw [List.map_cons] at hnodup
    have hnodup' := List.nodup_cons.mp hnodup
    rcases List.mem_cons.mp hw with hw1 | hw2 <;> rcases List.mem_cons.mp hp with hp1 | hp2
    · rw [hw1, hp1]
    · exfalso
      apply hnodup'.1
      rw [← hw1, hk]
      exact List.mem_map.mpr ⟨p, hp2, rfl⟩
    · exfalso
      apply hnodup'.1
      rw [← hp1, ← hk]
      exact List.mem_map.mpr ⟨w, hw2, rfl⟩
    · exact ih hnodup'.2 hw2 hp2 hk

theorem flatMap_block_within {α β : Type} {f : α → List β} {l : List α} {a : α}
    (h : a ∈ l) : f a <:+: l.flatMap f := by
  obtain ⟨s, t, rfl⟩ := List.append_of_mem h
  rw [List.flatMap_append, List.flatMap_cons]
  exact ⟨s.flatMap f, t.flatMap f, by simp⟩

theorem find?_filter_of_imp {l : List α} {p q : α → Bool}
    (h : ∀ x, p x = true → q x = true) :
    (l.filter q).find? p = l.find? p := by
  induction l with
  | nil => rfl
  | cons a t ih =>
    cases hq : q a with
    | true =>
      rw [List.filter_cons_of_pos hq]
      cases hp : p a with
      | true =>
        rw [@List.find?_cons_of_pos _ p a (t.filter q) hp,
          @List.find?_cons_of_pos _ p a t hp]
      | false =>
        rw [@List.find?_cons_of_neg _ p a (t.filter q) (by simp [hp]),
          @List.find?_cons_of_neg _ p a t (by simp [hp])]
        exact ih
    | false =>
      have hp : p a = false := by
        cases hpa : p a with
        | true => exact absurd (h a hpa) (by simp [hq])
        | false => rfl
      rw [List.filter_cons_of_neg (by simp [hq]),
        @List.find?_cons_of_neg _ p a t (by simp [hp])]
      exact ih

theorem applyColActions_untouched :
    ∀ (acts : List ColAction) (live : List (String × String)) (n : String),
      (∀ a ∈ acts, colActionName a ≠ n) →
      (applyColActions live acts).find? (fun c => c.1 == n) =
        live.find? (fun c => c.1 == n) := by
  intro acts
  induction acts with
  | nil =>
    intro live n _
    rfl
  | cons a rest ih =>
    intro live n h
    cases a with
    | add m t =>
      have hmn : m ≠ n := h (.add m t) (List.mem_cons_self _ _)
      simp only [applyColActions]
      rw [ih _ n (fun b hb => h b (List.mem_cons_of_mem _ hb))]
      rw [List.find?_append]
      have hone : List.find? (fun c => c.1 == n) [(m, t)] = none := by
        simp [hmn]
      rw [hone]
      cases live.find? (fun c => c.1 == n) <;> rfl
    | drop m =>
      have hmn : m ≠ n := h (.drop m) (List.mem_cons_self _ _)
      simp only [applyColActions]
      rw [ih _ n (fun b hb => h b (List.mem_cons_of_mem _ hb))]
      exact find?_filter_of_imp (fun x hx => by
        simp only [beq_iff_eq] at hx
        simp [bne, hx, Ne.symm hmn])

theorem applyColActions_replace_find :
    ∀ (reps : List (String × String)) (live : List (String × String)),
      ((reps.map Prod.fst).Nodup) →
      ∀ p ∈ reps,
        (applyColActions live (reps.flatMap replacePairActs)).find?
          (fun c => c.1 == p.1) = some p := by
  intro reps
  induction reps with
  | nil =>
    intro live _ p hp
    exact absurd hp (List.not_mem_nil _)
  | cons r rest ih =>
    intro live hnodup p hp
    rw [List.map_cons] at hnodup
    have hnodup' := List.nodup_cons.mp hnodup
    rw [List.flatMap_cons]
    have hstep : applyColActions live
        (replacePairActs r ++ rest.flatMap replacePairActs) =
        applyColActions ((live.filter (fun c => c.1 != r.1)) ++ [(r.1, r.2)])
          (rest.flatMap replacePairActs) := rfl
    rw [hstep]
    rcases List.mem_cons.mp hp with hpr | hprest
    · subst hpr
      have hnames : ∀ a ∈ rest.flatMap replacePairActs, colActionName a ≠ p.1 := by
        intro a ha hc
        have hmem := flatMap_name_mem ha
        rw [hc] at hmem
        exact hnodup'.1 hmem
      rw [applyColActions_untouched _ _ _ hnames, List.find?_append]
      have h1 : (live.filter (fun c => c.1 != p.1)).find? (fun c => c.1 == p.1) = none := by
        rw [List.find?_eq_none]
        intro x hx
        have hxk := List.of_mem_filter hx
        simp only [bne_iff_ne, ne_eq] at hxk
        simp [hxk]
      rw [h1]
      have h2 : List.find? (fun c => c.1 == p.1) [(p.1, p.2)] = some (p.1, p.2) := by
        simp
      rw [h2]
      simp
    · exact ih _ hnodup'.2 p hprest

theorem filterMap_keys_sublist (dict : List (String × (String × String))) (u : Bool) :
    ∀ l : List (String × J),
      List.Sublist ((l.filterMap (replaceEntry dict u)).map Prod.fst)
        (l.map Prod.fst) := by
  intro l
  induction l with
  | nil => simp
  | cons p t ih =>
    rw [List.filterMap_cons]
    cases hre : replaceEntry dict u p with
    | none =>
      exact ih.cons p.1
    | some q =>
      have hq : q.1 = p.1 := replaceEntry_name _ _ _ _ hre
      simp only [List.map_cons, hq]
      exact ih.cons₂ p.1

theorem collectReplace_ok_of_present (dict : List (String × (String × String))) (u : Bool) :
    ∀ l : List (String × J),
      (∀ p ∈ l, exceptIsOk (column_type p.2 u) = true) →
      (∀ p ∈ l, (pyDictGet? dict p.1.pyLower).isSome = true) →
      collectReplace dict u l = .ok (l.filterMap (replaceEntry dict u)) := by
  intro l
  induction l with
  | nil =>
    intro _ _
    rfl
  | cons q t ih =>
    intro hok hsome
    obtain ⟨n, ps⟩ := q
    obtain ⟨ct, hct⟩ := ok_of_exceptIsOk (hok (n, ps) (List.mem_cons_self _ t))
    have hs := hsome (n, ps) (List.mem_cons_self _ t)
    have hih := ih (fun w hw => hok w (List.mem_cons_of_mem _ hw))
      (fun w hw => hsome w (List.mem_cons_of_mem _ hw))
    simp only [collectReplace]
    rw [hct, except_bind_ok]
    cases hget : pyDictGet? dict n.pyLower with
    | none =>
      rw [show pyDictGet? dict (n, ps).1.pyLower = pyDictGet? dict n.pyLower from rfl,
        hget] at hs
      exact absurd hs (by simp)
    | some col =>
      rw [List.filterMap_cons]
      rw [show replaceEntry dict u (n, ps) =
          (if pyDictHasKey dict n.pyLower && col.2.pyLower != ct.pyLower &&
              !(col.2.pyLower == "timestamp without time zone" &&
                ct.pyLower == "timestamp with time zone") then
            some (n, ct)
          else none) from by
        unfold replaceEntry
        rw [show column_type (n, ps).2 u = column_type ps u from rfl, hct,
          show pyDictGet? dict (n, ps).1.pyLower = pyDictGet? dict n.pyLower from rfl,
          hget]]
      simp only [hget, hih, except_bind_ok, except_pure_eq]
      cases hcond : (pyDictHasKey dict n.pyLower && col.2.pyLower != ct.pyLower &&
          !(col.2.pyLower == "timestamp without time zone" &&
            ct.pyLower == "timestamp with time zone")) with
      | true => rfl
      | false => rfl

/-- C5: when every desired column is present (case-insensitively) in the
live column set and every column type computes, `update_columns` completes
without error; a live column stored as timestamp-without-timezone whose
desired type is timestamp-with-timezone produces no action (and its stored
type survives the plan); a live column whose stored type equals the desired
type produces no action; and every other live column whose stored type
differs from the desired resolved type produces a Replace issued as
drop-column immediately followed by add-column, after which the live
column's type equals the new desired type. -/
theorem C5_update_columns_replace :
    ∀ (fs : List (String × J)) (u : Bool) (live : List (String × String)),
      (∀ p ∈ fs, exceptIsOk (column_type p.2 u) = true) →
      (∀ p ∈ fs, pyDictHasKey (pyDictOf (live.map (fun c => (c.1.pyLower, c))))
          p.1.pyLower = true) →
      ((fs.map Prod.fst).Nodup) →
      (∀ p ∈ fs, p.1.pyLower = p.1) →
      (∀ c ∈ live, c.1.pyLower = c.1) →
      ((live.map Prod.fst).Nodup) →
      (update_columns fs u live).2 = Except.ok () ∧
      (∀ p ∈ fs, ∀ dt ft, (p.1, dt) ∈ live → column_type p.2 u = .ok ft →
        ((dt.pyLower = "timestamp without time zone" ∧
            ft.pyLower = "timestamp with time zone") →
          (∀ a ∈ (update_columns fs u live).1, colActionName a ≠ p.1) ∧
          (applyColActions live (update_columns fs u live).1).find?
            (fun c => c.1 == p.1) = some (p.1, dt)) ∧
        (dt.pyLower = ft.pyLower →
          ∀ a ∈ (update_columns fs u live).1, colActionName a ≠ p.1) ∧
        ((dt.pyLower ≠ ft.pyLower ∧
            ¬(dt.pyLower = "timestamp without time zone" ∧
              ft.pyLower = "timestamp with time zone")) →
          [ColAction.drop p.1, ColAction.add p.1 ft] <:+: (update_columns fs u live).1 ∧
          (applyColActions live (update_columns fs u live).1).find?
            (fun c => c.1 == p.1) = some (p.1, ft))) := by
  intro fs u live hok hpresent hfsnodup hfslower hlivelower hlivenodup
  have hmapeq : live.map (fun c => (c.1.pyLower, c)) = live.map (fun c => (c.1, c)) :=
    List.map_congr_left (fun c hc => by rw [hlivelower c hc])
  have hkeys : ((live.map (fun c => (c.1, c))).map Prod.fst) = live.map Prod.fst := by
    rw [List.map_map]
    rfl
  have hdicteq : pyDictOf (live.map (fun c => (c.1.pyLower, c))) =
      live.map (fun c => (c.1, c)) := by
    rw [hmapeq]
    exact pyDictOf_eq_self (by rw [hkeys]; exact hlivenodup)
  have hget : ∀ {n dt : String}, (n, dt) ∈ live →
      pyDictGet? (pyDictOf (live.map (fun c => (c.1.pyLower, c)))) n = some (n, dt) := by
    intro n dt hm
    rw [hdicteq]
    exact pyDictGet?_mapSelf hlivenodup hm
  have hsome : ∀ p ∈ fs,
      (pyDictGet? (pyDictOf (live.map (fun c => (c.1.pyLower, c)))) p.1.pyLower).isSome =
        true := by
    intro p hp
    rw [← hasKey_eq_isSome]
    exact hpresent p hp
  have hfilter : fs.filter (fun np =>
      !pyDictHasKey (pyDictOf (live.map (fun c => (c.1.pyLower, c)))) np.1.pyLower) = [] := by
    rw [List.filter_eq_nil_iff]
    intro p hp
    simp [hpresent p hp]
  have hcoll := collectReplace_ok_of_present
    (pyDictOf (live.map (fun c => (c.1.pyLower, c)))) u fs hok hsome
  have hupdate : update_columns fs u live =
      ((fs.filterMap
          (replaceEntry (pyDictOf (live.map (fun c => (c.1.pyLower, c)))) u)).flatMap
          replacePairActs,
        Except.ok ()) := by
    simp only [update_columns, hfilter, List.mapM_nil, except_pure_eq, hcoll,
      List.map_nil, List.nil_append]
  rw [hupdate]
  refine ⟨rfl, ?_⟩
  intro p hp dt ft hdtmem hft
  have hget' : pyDictGet? (pyDictOf (live.map (fun c => (c.1.pyLower, c))))
      p.1.pyLower = some (p.1, dt) := by
    rw [hfslower p hp]
    exact hget hdtmem
  have hre : replaceEntry (pyDictOf (live.map (fun c => (c.1.pyLower, c)))) u p =
      (if pyDictHasKey (pyDictOf (live.map (fun c => (c.1.pyLower, c)))) p.1.pyLower &&
          dt.pyLower != ft.pyLower &&
          !(dt.pyLower == "timestamp without time zone" &&
            ft.pyLower == "timestamp with time zone") then
        some (p.1, ft)
      else none) := by
    unfold replaceEntry
    rw [hft, hget']
  have hnoact_of_none :
      replaceEntry (pyDictOf (live.map (fun c => (c.1.pyLower, c)))) u p = none →
      ∀ a ∈ (fs.filterMap
          (replaceEntry (pyDictOf (live.map (fun c => (c.1.pyLower, c)))) u)).flatMap
          replacePairActs, colActionName a ≠ p.1 := by
    intro hnone a ha hc
    have hn := flatMap_name_mem ha
    rw [hc] at hn
    obtain ⟨r, hr, hrn⟩ := List.mem_map.mp hn
    obtain ⟨w, hw, hwe⟩ := List.mem_filterMap.mp hr
    have hw1 : r.1 = w.1 := replaceEntry_name _ _ _ _ hwe
    have hwp : w = p := pair_eq_of_nodup_keys hfsnodup hw hp (by rw [← hw1, hrn])
    rw [hwp, hnone] at hwe
    exact Option.noConfusion hwe
  refine ⟨?_, ?_, ?_⟩
  · rintro ⟨hdt, hft2⟩
    have hnone : replaceEntry (pyDictOf (live.map (fun c => (c.1.pyLower, c)))) u p =
        none := by
      rw [hre, hdt, hft2]
      simp
    have hnoact := hnoact_of_none hnone
    refine ⟨hnoact, ?_⟩
    rw [applyColActions_untouched _ _ _ hnoact]
    exact find?_key_of_mem_nodup hlivenodup hdtmem
  · intro heq
    have hnone : replaceEntry (pyDictOf (live.map (fun c => (c.1.pyLower, c)))) u p =
        none := by
      rw [hre, heq]
      simp
    exact hnoact_of_none hnone
  · rintro ⟨hne, hnexc⟩
    have hc1 : (dt.pyLower != ft.pyLower) = true := by
      simp [bne_iff_ne, hne]
    have hc2 : (dt.pyLower == "timestamp without time zone" &&
        ft.pyLower == "timestamp with time zone") = false := by
      cases hb1 : (dt.pyLower == "timestamp without time zone") with
      | false => rw [Bool.false_and]
      | true =>
        cases hb2 : (ft.pyLower == "timestamp with time zone") with
        | false => rw [Bool.and_false]
        | true =>
          exact absurd ⟨by simpa using hb1, by simpa using hb2⟩ hnexc
    have hsomeentry : replaceEntry (pyDictOf (live.map (fun c => (c.1.pyLower, c)))) u p =
        some (p.1, ft) := by
      rw [hre, hpresent p hp, hc1, hc2]
      rfl
    have hrmem : (p.1, ft) ∈ fs.filterMap
        (replaceEntry (pyDictOf (live.map (fun c => (c.1.pyLower, c)))) u) :=
      List.mem_filterMap.mpr ⟨p, hp, hsomeentry⟩
    constructor
    · exact @flatMap_block_within _ _ replacePairActs _ _ hrmem
    · have hrepsnodup : ((fs.filterMap
          (replaceEntry (pyDictOf (live.map (fun c => (c.1.pyLower, c)))) u)).map
            Prod.fst).Nodup :=
        List.Nodup.sublist
          (filterMap_keys_sublist (pyDictOf (live.map (fun c => (c.1.pyLower, c)))) u fs)
          hfsnodup
      exact applyColActions_replace_find _ live hrepsnodup (p.1, ft) hrmem

/-- Witness for C5: desired `c : bigint` over stored `c : boolean` is
replaced (drop then add, final stored type bigint), while desired
`d : timestamp with time zone` over stored `d : timestamp without time zone`
triggers no action; the method completes without error. -/
theorem C5_update_columns_replace_witness :
    (update_columns
      [("c", J.obj [("type", J.str "integer")]),
       ("d", J.obj [("type", J.str "string"), ("format", J.str "date-time")])] true
      [("c", "boolean"), ("d", "timestamp without time zone")]).2 = Except.ok () ∧
    [ColAction.drop "c", ColAction.add "c" "bigint"] <:+:
      (update_columns
        [("c", J.obj [("type", J.str "integer")]),
         ("d", J.obj [("type", J.str "string"), ("format", J.str "date-time")])] true
        [("c", "boolean"), ("d", "timestamp without time zone")]).1 ∧
    (applyColActions [("c", "boolean"), ("d", "timestamp without time zone")]
      (update_columns
        [("c", J.obj [("type", J.str "integer")]),
         ("d", J.obj [("type", J.str "string"), ("format", J.str "date-time")])] true
        [("c", "boolean"), ("d", "timestamp without time zone")]).1).find?
      (fun c => c.1 == "c") = some ("c", "bigint") ∧
    ∀ a ∈ (update_columns
        [("c", J.obj [("type", J.str "integer")]),
         ("d", J.obj [("type", J.str "string"), ("format", J.str "date-time")])] true
        [("c", "boolean"), ("d", "timestamp without time zone")]).1,
      colActionName a ≠ "d" := by
  have T := C5_update_columns_replace
    [("c", J.obj [("type", J.str "integer")]),
     ("d", J.obj [("type", J.str "string"), ("format", J.str "date-time")])] true
    [("c", "boolean"), ("d", "timestamp without time zone")]
    (by decide) (by decide) (by decide) (by decide) (by decide) (by decide)
  have hc := (T.2 ("c", J.obj [("type", J.str "integer")]) (List.mem_cons_self _ _)
    "boolean" "bigint" (List.mem_cons_self _ _) rfl).2.2 ⟨by decide, by decide⟩
  have hd := (T.2 ("d", J.obj [("type", J.str "string"), ("format", J.str "date-time")])
    (List.mem_cons_of_mem _ (List.mem_cons_self _ _))
    "timestamp without time zone" "timestamp with time zone"
    (List.mem_cons_of_mem _ (List.mem_cons_self _ _)) rfl).1 ⟨by decide, by decide⟩
  exact ⟨T.1, hc.1, hc.2, hd.1⟩

end DbSyncModel
